import Mathlib

/-!
# HeapADT: an array-backed binary heap

A shallow embedding of `src/HeapADT.c` and the properties of its operations.

Modelling conventions.

* `void *` item handles are addresses, `Ptr := Nat`, with `NULL = 0`.
* `size_t` is a `Nat` with every arithmetic operation reduced modulo `2 ^ 64`.
* The backing block `void **array` is the list of its slots.  Reading outside
  the block yields `NULL` and writing outside the block does nothing; C leaves
  both undefined, and no operation does either on a heap with
  `number ≤ capacity = length of the block`.
* `malloc`, `calloc` and `realloc` always succeed; sizes are counted in slots.
  The slots that `realloc` adds are indeterminate in C and `NULL` here; the
  insert and remove operations write such a slot before they read it, and no
  statement below about `helpFree` runs it on a block that `realloc` produced.
* `compFun` returns an `int` that is only ever tested for being non-zero: a `Bool`.
* `dumpEntry` acts on an outside world of type `σ`.
* The two `while` loops take fuel and return `none` when it runs out.
-/

namespace HeapADT

/-- An item handle (`void *`): an address. -/
abbrev Ptr := Nat

/-- The null handle. -/
def NULL : Ptr := 0

/-- An output stream handle (`FILE *`). -/
abbrev FILE := Nat

/-- The number of values of `size_t`, `2 ^ 64`. -/
def SIZE_MOD : Nat := 18446744073709551616

/-- The growth increment of the backing block. -/
def ALLOC_UNIT : Nat := 5

/-- The control block `struct Heap_S`. -/
structure Heap_S (σ : Type) where
  capacity : Nat
  compFun : Ptr → Ptr → Bool
  dumpEntry : Ptr → FILE → σ → σ
  array : List Ptr
  number : Nat

variable {σ : Type}

/-- Read slot `i` of a block (`array[i]` as an rvalue). -/
def rd (a : List Ptr) (i : Nat) : Ptr := a.getD i NULL

/-- Write slot `i` of a block (`array[i] = v`). -/
def wr (a : List Ptr) (i : Nat) (v : Ptr) : List Ptr := a.set i v

/-- The index of the parent: `(index - 1) / 2` in `size_t`. -/
def parent (index : Nat) : Nat := ((index + SIZE_MOD - 1) % SIZE_MOD) / 2

/-- The index of the left child: `2 * index + 1` in `size_t`. -/
def lChild (index : Nat) : Nat := (2 * index + 1) % SIZE_MOD

/-- The index of the right child: `2 * index + 2` in `size_t`. -/
def rChild (index : Nat) : Nat := (2 * index + 2) % SIZE_MOD

/-- A block of `n` zeroed slots (`calloc(n, sizeof(void*))`). -/
def calloc (n : Nat) : List Ptr := List.replicate n NULL

/-- Resize a block to `n` slots (`realloc`): the common part is kept. -/
def realloc (a : List Ptr) (n : Nat) : List Ptr :=
  (a ++ List.replicate (n - a.length) NULL).take n

/-- Construct an empty heap; `none` is the failed assertion on the callbacks. -/
def createHeap (capacity : Nat) (compFun : Option (Ptr → Ptr → Bool))
    (dumpEntry : Option (Ptr → FILE → σ → σ)) : Option (Heap_S σ) :=
  let array := (List.range capacity).foldl (fun a i => wr a i NULL) (calloc capacity)
  match dumpEntry, compFun with
  | some d, some c =>
    some { capacity := capacity, compFun := c, dumpEntry := d, array := array, number := 0 }
  | _, _ => none

/-- What a call of `free` releases. -/
inductive Freed where
  | item (p : Ptr)
  | block
  | control
  deriving DecidableEq, Repr

/-- One round of the loop of `helpFree`: slot `i` is released when it is not `NULL`. -/
def helpFreeStep (acc : List Freed × List Ptr) (i : Nat) : List Freed × List Ptr :=
  if rd acc.2 i ≠ NULL then (acc.1 ++ [Freed.item (rd acc.2 i)], wr acc.2 i NULL) else acc

/-- Release what is inside the heap: the calls of `free` in order, and the heap left. -/
def helpFree (aHeap : Heap_S σ) : List Freed × Heap_S σ :=
  let r := if aHeap.number ≠ 0 then
      (List.range aHeap.capacity).foldl helpFreeStep ([], aHeap.array)
    else ([], aHeap.array)
  (r.1 ++ [Freed.block], { aHeap with array := [], capacity := 0, number := 0 })

/-- Delete the heap: the calls of `free` in order; `none` is the failed assertion
on a null heap reference. -/
def destroyHeap (aHeap : Option (Heap_S σ)) : Option (List Freed) :=
  match aHeap with
  | none => none
  | some h => some ((helpFree h).1 ++ [Freed.control])

/-- The number of active entries. -/
def sizeHeap (aHeap : Heap_S σ) : Nat := aHeap.number

/-- The handle in slot 0. -/
def topHeap (aHeap : Heap_S σ) : Ptr := rd aHeap.array 0

/-- The loop of `siftUp`. -/
def siftUpLoop : Nat → Heap_S σ → Nat → Option (Heap_S σ)
  | 0, aHeap, index =>
    if index > 0 ∧ aHeap.compFun (rd aHeap.array (parent index)) (rd aHeap.array index) = false
    then none else some aHeap
  | fuel + 1, aHeap, index =>
    if index > 0 ∧ aHeap.compFun (rd aHeap.array (parent index)) (rd aHeap.array index) = false
    then
      let temp := rd aHeap.array (parent index)
      let a1 := wr aHeap.array (parent index) (rd aHeap.array index)
      let a2 := wr a1 index temp
      siftUpLoop fuel { aHeap with array := a2 } (parent index)
    else some aHeap

/-- Move the value at `index` up to its spot; every round lowers `index`, so
`index` rounds of fuel are given. -/
def siftUp (aHeap : Heap_S σ) (index : Nat) : Option (Heap_S σ) :=
  siftUpLoop index aHeap index

/-- The index, among `index` and its children, of the value that comes first. -/
def first_of_three (aHeap : Heap_S σ) (index : Nat) : Nat :=
  let lt := lChild index
  let rt := rChild index
  let value := rd aHeap.array index
  if rt < aHeap.number then
    let lVal := rd aHeap.array lt
    let rVal := rd aHeap.array rt
    if aHeap.compFun lVal value || aHeap.compFun rVal value then
      if aHeap.compFun lVal rVal then lt else rt
    else index
  else if lt < aHeap.number then
    let lVal := rd aHeap.array lt
    if aHeap.compFun lVal value then lt else index
  else index

/-- The loop of `siftDown`. -/
def siftDownLoop : Nat → Heap_S σ → Nat → Option (Heap_S σ)
  | 0, aHeap, curr =>
    if first_of_three aHeap curr ≠ curr then none else some aHeap
  | fuel + 1, aHeap, curr =>
    let swapIndex := first_of_three aHeap curr
    if swapIndex ≠ curr then
      let temp := rd aHeap.array swapIndex
      let a1 := wr aHeap.array swapIndex (rd aHeap.array curr)
      let a2 := wr a1 curr temp
      siftDownLoop fuel { aHeap with array := a2 } swapIndex
    else some aHeap

/-- Move the value at `index` down to its spot, with `number` rounds of fuel. -/
def siftDown (aHeap : Heap_S σ) (index : Nat) : Option (Heap_S σ) :=
  siftDownLoop aHeap.number aHeap index

/-- Remove the topmost item: the handle returned and the heap left. -/
def removeTopHeap (aHeap : Heap_S σ) : Option (Ptr × Heap_S σ) :=
  let topHead := rd aHeap.array 0
  let last := (aHeap.number + SIZE_MOD - 1) % SIZE_MOD
  let h1 : Heap_S σ := { aHeap with array := wr aHeap.array 0 (rd aHeap.array last) }
  let h2 : Heap_S σ := { h1 with number := last }
  (siftDown h2 0).map (fun h3 => (topHead, h3))

/-- The growth step at the head of `insertHeapItem`: a full block gets
`ALLOC_UNIT` more slots. -/
def growIfFull (aHeap : Heap_S σ) : Heap_S σ :=
  if aHeap.number = aHeap.capacity then
    let cap := (aHeap.capacity + ALLOC_UNIT) % SIZE_MOD
    { aHeap with capacity := cap, array := realloc aHeap.array cap }
  else aHeap

/-- Insert an item. -/
def insertHeapItem (aHeap : Heap_S σ) (item : Ptr) : Option (Heap_S σ) :=
  let h1 : Heap_S σ := growIfFull aHeap
  let h2 : Heap_S σ := { h1 with array := wr h1.array h1.number item }
  (siftUp h2 h2.number).map (fun h3 => { h3 with number := (h3.number + 1) % SIZE_MOD })

/-- The loop of `dumpHeap`, from index `i`. -/
def dumpLoop (aHeap : Heap_S σ) (outfp : FILE) : Nat → Nat → σ → Option σ
  | 0, i, w => if i < aHeap.number then none else some w
  | fuel + 1, i, w =>
    if i < aHeap.number then
      dumpLoop aHeap outfp fuel ((i + 1) % SIZE_MOD) (aHeap.dumpEntry (rd aHeap.array i) outfp w)
    else some w

/-- Dump the entries: the heap and the world afterwards. -/
def dumpHeap (aHeap : Heap_S σ) (outfp : FILE) (w : σ) : Option (Heap_S σ × σ) :=
  (dumpLoop aHeap outfp aHeap.number 0 w).map (fun w1 => (aHeap, w1))

/-! ### Vocabulary of the properties -/

/-- The active entries `array[0 .. number)`, in storage order. -/
def active (aHeap : Heap_S σ) : List Ptr := (List.range aHeap.number).map (rd aHeap.array)

/-- The block has `capacity` slots and the active entries fit in it. -/
def wellFormed (aHeap : Heap_S σ) : Prop :=
  aHeap.number ≤ aHeap.capacity ∧ aHeap.array.length = aHeap.capacity

/-- Half of the range of `size_t`: below it no child index overflows. -/
def HALF : Nat := 9223372036854775808

/-- A strict weak order: irreflexive, transitive, with transitive incomparability. -/
def StrictWeakOrder (c : Ptr → Ptr → Bool) : Prop :=
  (∀ a, c a a = false) ∧
  (∀ a b d, c a b = true → c b d = true → c a d = true) ∧
  (∀ a b d, c a b = false → c b a = false → c b d = false → c d b = false →
    c a d = false ∧ c d a = false)

/-- Heap order on the first `n` slots of a block: no child ranks strictly before its parent. -/
def HeapOrd (c : Ptr → Ptr → Bool) (a : List Ptr) (n : Nat) : Prop :=
  ∀ i, 0 < i → i < n → c (rd a i) (rd a (parent i)) = false

/-- The heap-order invariant of a heap. -/
def heapOrdered (aHeap : Heap_S σ) : Prop :=
  HeapOrd aHeap.compFun aHeap.array aHeap.number

/-- The exchange of slots `i` and `j` done by both sift loops. -/
def swapBlk (a : List Ptr) (i j : Nat) : List Ptr := wr (wr a i (rd a j)) j (rd a i)

/-- Two heap states that differ at most in the contents of the block. -/
def SameFrame (h1 h2 : Heap_S σ) : Prop :=
  h2.number = h1.number ∧ h2.capacity = h1.capacity ∧ h2.compFun = h1.compFun ∧
    h2.dumpEntry = h1.dumpEntry ∧ h2.array.length = h1.array.length

/-- The loop invariant of `siftUp` at index `k`: heap order holds except between `k`
and its parent, and the children of `k` are in order with the parent of `k`. -/
def UpInv (c : Ptr → Ptr → Bool) (a : List Ptr) (n k : Nat) : Prop :=
  (∀ i, 0 < i → i < n → i ≠ k → c (rd a i) (rd a (parent i)) = false) ∧
  (∀ i, 0 < i → i < n → parent i = k → 0 < k → c (rd a i) (rd a (parent k)) = false)

/-- The loop invariant of `siftDown` at index `k`: heap order holds except between `k`
and its children, and the children of `k` are in order with the parent of `k`. -/
def DownInv (c : Ptr → Ptr → Bool) (a : List Ptr) (n k : Nat) : Prop :=
  (∀ i, 0 < i → i < n → parent i ≠ k → c (rd a i) (rd a (parent i)) = false) ∧
  (∀ i, 0 < i → i < n → parent i = k → 0 < k → c (rd a i) (rd a (parent k)) = false)

/-! ### Call sequences -/

/-- Call `insertHeapItem` on each element of the list, in order. -/
def insertAll : List Ptr → Heap_S σ → Option (Heap_S σ)
  | [], h => some h
  | x :: xs, h => (insertHeapItem h x).bind (insertAll xs)

/-- Call `removeTopHeap` `n` times: the handles returned, in order, and the heap left. -/
def drain : Nat → Heap_S σ → Option (List Ptr × Heap_S σ)
  | 0, h => some ([], h)
  | n + 1, h =>
    (removeTopHeap h).bind (fun r => (drain n r.2).map (fun s => (r.1 :: s.1, s.2)))

/-- A call of one of the two mutating operations. -/
inductive Call where
  | insert (item : Ptr)
  | removeTop
  deriving DecidableEq, Repr

/-- Run a call sequence: the heap left and the handles returned by the `removeTop`
calls, in order. -/
def runCalls : List Call → Heap_S σ → Option (Heap_S σ × List Ptr)
  | [], h => some (h, [])
  | Call.insert x :: cs, h => (insertHeapItem h x).bind (runCalls cs)
  | Call.removeTop :: cs, h =>
    (removeTopHeap h).bind (fun r => (runCalls cs r.2).map (fun s => (s.1, r.1 :: s.2)))

/-- Starting with `n` entries, no `removeTop` of the sequence meets an empty heap. -/
def admissible : Nat → List Call → Bool
  | _, [] => true
  | n, Call.insert _ :: cs => admissible (n + 1) cs
  | 0, Call.removeTop :: _ => false
  | n + 1, Call.removeTop :: cs => admissible n cs

/-- The handles inserted by a call sequence, in order. -/
def inserted : List Call → List Ptr
  | [] => []
  | Call.insert x :: cs => x :: inserted cs
  | Call.removeTop :: cs => inserted cs

/-- The number of `removeTop` calls of a sequence. -/
def removes : List Call → Nat
  | [] => 0
  | Call.insert _ :: cs => removes cs
  | Call.removeTop :: cs => removes cs + 1

/-- Less-than on handles read as integers. -/
def ltPtr : Ptr → Ptr → Bool := fun a b => decide (a < b)

/-- A `dumpEntry` that appends the call it receives to a log. -/
def logEntry : Ptr → FILE → List (Ptr × FILE) → List (Ptr × FILE) :=
  fun item outfp w => w ++ [(item, outfp)]

/-- The same heap with `logEntry` as its `dumpEntry`. -/
def recording (aHeap : Heap_S σ) : Heap_S (List (Ptr × FILE)) :=
  { capacity := aHeap.capacity, compFun := aHeap.compFun, dumpEntry := logEntry,
    array := aHeap.array, number := aHeap.number }

/-- A heap of one item, as `insertHeapItem` leaves it after `createHeap 5`. -/
def heapOne : Heap_S (List (Ptr × FILE)) :=
  { capacity := 5, compFun := ltPtr, dumpEntry := logEntry, array := [7, 0, 0, 0, 0], number := 1 }

/-- A full heap of three items. -/
def heapFull : Heap_S (List (Ptr × FILE)) :=
  { capacity := 3, compFun := ltPtr, dumpEntry := logEntry, array := [2, 9, 4], number := 3 }

instance (aHeap : Heap_S σ) : Decidable (wellFormed aHeap) :=
  inferInstanceAs (Decidable (_ ∧ _))

instance (c : Ptr → Ptr → Bool) (a : List Ptr) (n : Nat) : Decidable (HeapOrd c a n) :=
  decidable_of_iff (∀ i, i < n → 0 < i → c (rd a i) (rd a (parent i)) = false)
    ⟨fun h i h0 hn => h i hn h0, fun h i hn h0 => h i h0 hn⟩

instance (aHeap : Heap_S σ) : Decidable (heapOrdered aHeap) :=
  inferInstanceAs (Decidable (HeapOrd _ _ _))

/-- The indices `k, parent k, parent (parent k), ...` met by `siftUp` from `k`, with the
fuel of `siftUpLoop`; with fuel at least `k` the list ends at the root 0. -/
def ancestorPath : Nat → Nat → List Nat
  | 0, k => [k]
  | fuel + 1, k => if k > 0 then k :: ancestorPath fuel (parent k) else [k]

/-- A heap state whose two children of the root tie: `[5, 3, 3]`, as `removeTopHeap`
meets it on the heap `[1, 3, 3, 5]` after moving the last entry to the root. -/
def heapTie : Heap_S (List (Ptr × FILE)) :=
  { capacity := 4, compFun := ltPtr, dumpEntry := logEntry, array := [5, 3, 3, 5], number := 3 }

/-- An order with ties between distinct handles: compare the tens. -/
def ltTens : Ptr → Ptr → Bool := fun a b => decide (a / 10 < b / 10)

/-- A full heap of three items ordered by `ltTens`. -/
def heapTens : Heap_S (List (Ptr × FILE)) :=
  { capacity := 3, compFun := ltTens, dumpEntry := logEntry, array := [20, 90, 40], number := 3 }

/-- The heap `[2, 9, 4]` with a `compFun` that answers true whatever it is given, which
is not irreflexive and so no order at all. -/
def heapAnyOrder : Heap_S (List (Ptr × FILE)) :=
  { capacity := 3, compFun := fun _ _ => true, dumpEntry := logEntry, array := [2, 9, 4],
    number := 3 }

/-- Greater-than on handles read as integers: the order of a max-heap. -/
def gtPtr : Ptr → Ptr → Bool := fun a b => decide (b < a)

/-- The state in which `removeTopHeap`, called on an empty heap, enters `siftDown`, when
its read of `array[number - 1]` has yielded `v`: slot 0 holds `v` and `number` has
wrapped around to `2 ^ 64 - 1`. -/
def emptyReadState (aHeap : Heap_S σ) (v : Ptr) : Heap_S σ :=
  { aHeap with array := wr aHeap.array 0 v, number := SIZE_MOD - 1 }

/-- The empty heap that `createHeap 3` returns for `gtPtr` and `logEntry`. -/
def heapEmpty : Heap_S (List (Ptr × FILE)) :=
  { capacity := 3, compFun := gtPtr, dumpEntry := logEntry, array := [0, 0, 0], number := 0 }

/-! ### Index arithmetic -/

theorem parent_lt {i : Nat} (h : 0 < i) : parent i < i := by
  simp only [parent, SIZE_MOD]; omega

theorem parent_eq {i : Nat} (h : 0 < i) (hi : i < SIZE_MOD) : parent i = (i - 1) / 2 := by
  simp only [parent, SIZE_MOD] at *; omega

theorem lChild_eq {i : Nat} (hi : i < HALF) : lChild i = 2 * i + 1 := by
  simp only [lChild, SIZE_MOD, HALF] at *; omega

theorem rChild_eq {i : Nat} (hi : i + 1 < HALF) : rChild i = 2 * i + 2 := by
  simp only [rChild, SIZE_MOD, HALF] at *; omega

theorem parent_eq_iff {i k : Nat} (h : 0 < i) (hi : i < SIZE_MOD) :
    parent i = k ↔ i = 2 * k + 1 ∨ i = 2 * k + 2 := by
  rw [parent_eq h hi]; omega

/-! ### Blocks -/

theorem length_wr (a : List Ptr) (i : Nat) (v : Ptr) : (wr a i v).length = a.length := by
  simp [wr]

theorem rd_wr_same {a : List Ptr} {i : Nat} (v : Ptr) (h : i < a.length) : rd (wr a i v) i = v := by
  simp [rd, wr, List.getD_eq_getElem?_getD, h]

theorem rd_wr_other {a : List Ptr} {i j : Nat} (v : Ptr) (h : j ≠ i) : rd (wr a i v) j = rd a j := by
  simp [rd, wr, List.getD_eq_getElem?_getD, List.getElem?_set_ne (Ne.symm h)]

theorem length_swapBlk (a : List Ptr) (i j : Nat) : (swapBlk a i j).length = a.length := by
  simp [swapBlk, length_wr]

theorem rd_swapBlk {a : List Ptr} {i j : Nat} (hi : i < a.length) (hj : j < a.length) (k : Nat) :
    rd (swapBlk a i j) k = if k = j then rd a i else if k = i then rd a j else rd a k := by
  unfold swapBlk
  by_cases hkj : k = j
  · subst hkj
    rw [rd_wr_same _ (by rw [length_wr]; exact hj)]; simp
  · rw [rd_wr_other _ hkj, if_neg hkj]
    by_cases hki : k = i
    · subst hki
      rw [rd_wr_same _ hi, if_pos rfl]
    · rw [rd_wr_other _ hki, if_neg hki]

theorem rd_swapBlk_comp {a : List Ptr} {i j : Nat} (hi : i < a.length) (hj : j < a.length) :
    rd (swapBlk a i j) = rd a ∘ (Equiv.swap i j) := by
  funext k
  rw [rd_swapBlk hi hj, Function.comp_apply]
  by_cases hkj : k = j
  · subst hkj; simp
  · by_cases hki : k = i
    · subst hki; simp [hkj]
    · rw [if_neg hkj, if_neg hki, Equiv.swap_apply_of_ne_of_ne hki hkj]

theorem range_map_swap_perm {n i j : Nat} (hi : i < n) (hj : j < n) :
    ((List.range n).map (Equiv.swap i j)).Perm (List.range n) := by
  apply (List.perm_ext_iff_of_nodup ?_ (List.nodup_range n)).2
  · intro k
    simp only [List.mem_map, List.mem_range]
    constructor
    · rintro ⟨m, hm, rfl⟩
      by_cases h1 : m = i
      · subst h1; simpa using hj
      · by_cases h2 : m = j
        · subst h2; simpa using hi
        · rw [Equiv.swap_apply_of_ne_of_ne h1 h2]; exact hm
    · intro hk
      refine ⟨Equiv.swap i j k, ?_, by simp⟩
      by_cases h1 : k = i
      · subst h1; simpa using hj
      · by_cases h2 : k = j
        · subst h2; simpa using hi
        · rw [Equiv.swap_apply_of_ne_of_ne h1 h2]; exact hk
  · exact (List.nodup_range n).map (Equiv.swap i j).injective

theorem swapBlk_perm {a : List Ptr} {n i j : Nat} (hi : i < n) (hj : j < n) (hn : n ≤ a.length) :
    ((List.range n).map (rd (swapBlk a i j))).Perm ((List.range n).map (rd a)) := by
  rw [rd_swapBlk_comp (lt_of_lt_of_le hi hn) (lt_of_lt_of_le hj hn), ← List.map_map]
  exact (range_map_swap_perm hi hj).map _

/-! ### Strict weak orders -/

theorem StrictWeakOrder.asymm {c : Ptr → Ptr → Bool} (hc : StrictWeakOrder c) {a b : Ptr}
    (h : c a b = true) : c b a = false := by
  by_contra h2
  have h3 : c b a = true := by simpa using h2
  have := hc.2.1 a b a h h3
  rw [hc.1 a] at this
  exact Bool.false_ne_true this

theorem StrictWeakOrder.negTrans {c : Ptr → Ptr → Bool} (hc : StrictWeakOrder c) {a b d : Ptr}
    (h1 : c a b = false) (h2 : c b d = false) : c a d = false := by
  by_contra h3
  have h3 : c a d = true := by simpa using h3
  cases hba : c b a with
  | true =>
    have := hc.2.1 b a d hba h3
    rw [h2] at this; exact Bool.false_ne_true this
  | false =>
    cases hdb : c d b with
    | true =>
      have := hc.2.1 a d b h3 hdb
      rw [h1] at this; exact Bool.false_ne_true this
    | false =>
      have := (hc.2.2 a b d h1 hba h2 hdb).1
      rw [h3] at this; exact Bool.false_ne_true this.symm

/-! ### siftUp -/

theorem SameFrame.rfl_ (h : Heap_S σ) : SameFrame h h := ⟨rfl, rfl, rfl, rfl, rfl⟩

theorem SameFrame.trans_ {h1 h2 h3 : Heap_S σ} (a : SameFrame h1 h2) (b : SameFrame h2 h3) :
    SameFrame h1 h3 :=
  ⟨b.1.trans a.1, b.2.1.trans a.2.1, b.2.2.1.trans a.2.2.1, b.2.2.2.1.trans a.2.2.2.1,
    b.2.2.2.2.trans a.2.2.2.2⟩

theorem siftUpLoop_frame : ∀ (fuel : Nat) (h : Heap_S σ) (k : Nat), k ≤ fuel →
    ∃ h2, siftUpLoop fuel h k = some h2 ∧ SameFrame h h2 ∧
      ∀ n, k < n → n ≤ h.array.length →
        ((List.range n).map (rd h2.array)).Perm ((List.range n).map (rd h.array)) := by
  intro fuel
  induction fuel with
  | zero =>
    intro h k hk
    have hk0 : k = 0 := by omega
    subst hk0
    exact ⟨h, by simp [siftUpLoop], SameFrame.rfl_ h, fun n _ _ => List.Perm.refl _⟩
  | succ fuel ih =>
    intro h k hk
    unfold siftUpLoop
    split
    · rename_i hc
      have hp : parent k < k := parent_lt hc.1
      obtain ⟨h2, e, fr, pm⟩ := ih
        { h with array := wr (wr h.array (parent k) (rd h.array k)) k (rd h.array (parent k)) }
        (parent k) (by omega)
      refine ⟨h2, e, ?_, ?_⟩
      · have f1 : SameFrame h { h with
            array := wr (wr h.array (parent k) (rd h.array k)) k (rd h.array (parent k)) } :=
          ⟨rfl, rfl, rfl, rfl, by simp [length_wr]⟩
        exact f1.trans_ fr
      · intro n hkn hn
        have h1 := pm n (by omega) (by simpa [length_wr] using hn)
        exact h1.trans (swapBlk_perm (by omega) hkn hn)
    · exact ⟨h, rfl, SameFrame.rfl_ h, fun n _ _ => List.Perm.refl _⟩

theorem upInv_step {c : Ptr → Ptr → Bool} (hc : StrictWeakOrder c) {a : List Ptr} {n k : Nat}
    (hk : 0 < k) (hkn : k < n) (hn : n ≤ a.length)
    (hcmp : c (rd a (parent k)) (rd a k) = false) (inv : UpInv c a n k) :
    UpInv c (swapBlk a (parent k) k) n (parent k) := by
  have hp : parent k < k := parent_lt hk
  have hpl : parent k < a.length := by omega
  have hkl : k < a.length := by omega
  obtain ⟨inv1, inv2⟩ := inv
  constructor
  · intro i hi0 hin hip
    rw [rd_swapBlk hpl hkl, rd_swapBlk hpl hkl]
    by_cases hik : i = k
    · subst hik
      rw [if_pos rfl, if_neg (by omega), if_pos rfl]
      exact hcmp
    · rw [if_neg hik, if_neg hip]
      by_cases hq : parent i = k
      · rw [if_pos hq]
        exact inv2 i hi0 hin hq hk
      · rw [if_neg hq]
        by_cases hq2 : parent i = parent k
        · rw [if_pos hq2]
          have := inv1 i hi0 hin hik
          rw [hq2] at this
          exact hc.negTrans this hcmp
        · rw [if_neg hq2]
          exact inv1 i hi0 hin hik
  · intro i hi0 hin hip hp0
    have hpp : parent (parent k) < parent k := parent_lt hp0
    have hi : parent i < i := parent_lt hi0
    rw [rd_swapBlk hpl hkl, rd_swapBlk hpl hkl, if_neg (by omega : parent (parent k) ≠ k),
      if_neg (by omega : parent (parent k) ≠ parent k)]
    have hpk := inv1 (parent k) hp0 (by omega) (by omega)
    by_cases hik : i = k
    · rw [if_pos hik]
      exact hpk
    · rw [if_neg hik, if_neg (by omega : i ≠ parent k)]
      have := inv1 i hi0 hin hik
      rw [hip] at this
      exact hc.negTrans this hpk

theorem siftUpLoop_ord : ∀ (fuel : Nat) (h h2 : Heap_S σ) (k n : Nat),
    siftUpLoop fuel h k = some h2 → StrictWeakOrder h.compFun → k < n → n ≤ h.array.length →
    UpInv h.compFun h.array n k → HeapOrd h.compFun h2.array n := by
  have fin : ∀ (h : Heap_S σ) (k n : Nat), StrictWeakOrder h.compFun →
      ¬ (k > 0 ∧ h.compFun (rd h.array (parent k)) (rd h.array k) = false) →
      UpInv h.compFun h.array n k → HeapOrd h.compFun h.array n := by
    intro h k n hc hcond inv i hi0 hin
    by_cases hik : i = k
    · subst hik
      have : h.compFun (rd h.array (parent i)) (rd h.array i) = true := by
        by_contra hx
        exact hcond ⟨hi0, by simpa using hx⟩
      exact hc.asymm this
    · exact inv.1 i hi0 hin hik
  intro fuel
  induction fuel with
  | zero =>
    intro h h2 k n e hc hkn hn inv
    unfold siftUpLoop at e
    split at e
    · exact absurd e (by simp)
    · rename_i hcond
      cases e
      exact fin h k n hc hcond inv
  | succ fuel ih =>
    intro h h2 k n e hc hkn hn inv
    unfold siftUpLoop at e
    split at e
    · rename_i hcond
      have hp : parent k < k := parent_lt hcond.1
      exact ih { h with array := swapBlk h.array (parent k) k } h2 (parent k) n e hc (by omega)
        (by simpa [length_swapBlk] using hn) (upInv_step hc hcond.1 hkn hn hcond.2 inv)
    · rename_i hcond
      cases e
      exact fin h k n hc hcond inv

/-! ### first_of_three and siftDown -/

theorem first_of_three_cases (h : Heap_S σ) (curr : Nat) (hc : curr + 1 < HALF) :
    first_of_three h curr = curr ∨
      (first_of_three h curr = 2 * curr + 1 ∧ 2 * curr + 1 < h.number) ∨
      (first_of_three h curr = 2 * curr + 2 ∧ 2 * curr + 2 < h.number) := by
  unfold first_of_three
  rw [lChild_eq (by omega), rChild_eq hc]
  simp only
  split
  · split
    · split
      · right; left; exact ⟨rfl, by omega⟩
      · right; right; exact ⟨rfl, by assumption⟩
    · left; rfl
  · split
    · split
      · right; left; exact ⟨rfl, by assumption⟩
      · left; rfl
    · left; rfl

theorem first_of_three_stay {h : Heap_S σ} {curr : Nat}
    (hc : curr + 1 < HALF) (e : first_of_three h curr = curr) :
    ∀ i, i < h.number → i = 2 * curr + 1 ∨ i = 2 * curr + 2 →
      h.compFun (rd h.array i) (rd h.array curr) = false := by
  unfold first_of_three at e
  rw [lChild_eq (by omega), rChild_eq hc] at e
  simp only at e
  intro i hi hch
  split at e
  · split at e
    · split at e <;> omega
    · rename_i hor
      simp only [Bool.or_eq_true, not_or, Bool.not_eq_true] at hor
      rcases hch with rfl | rfl
      · exact hor.1
      · exact hor.2
  · split at e
    · split at e
      · omega
      · rename_i hl
        rcases hch with rfl | rfl
        · simpa using hl
        · omega
    · omega

theorem first_of_three_move {h : Heap_S σ} (hs : StrictWeakOrder h.compFun) {curr : Nat}
    (hc : curr + 1 < HALF) (e : first_of_three h curr ≠ curr) :
    h.compFun (rd h.array (first_of_three h curr)) (rd h.array curr) = true ∧
    ∀ i, i < h.number → i = 2 * curr + 1 ∨ i = 2 * curr + 2 →
      h.compFun (rd h.array i) (rd h.array (first_of_three h curr)) = false := by
  unfold first_of_three at e ⊢
  rw [lChild_eq (by omega), rChild_eq hc] at e ⊢
  simp only at e ⊢
  split
  · rename_i hr
    rw [if_pos hr] at e
    split
    · rename_i hor
      simp only [Bool.or_eq_true] at hor
      split
      · rename_i hlr
        refine ⟨?_, ?_⟩
        · rcases hor with hl | hrv
          · exact hl
          · exact hs.2.1 _ _ _ hlr hrv
        · intro i hi hch
          rcases hch with rfl | rfl
          · exact hs.1 _
          · exact hs.asymm hlr
      · rename_i hlr
        have hlr : h.compFun (rd h.array (2 * curr + 1)) (rd h.array (2 * curr + 2)) = false := by
          simpa using hlr
        refine ⟨?_, ?_⟩
        · rcases hor with hl | hrv
          · by_contra hx
            have hx : h.compFun (rd h.array (2 * curr + 2)) (rd h.array curr) = false := by
              simpa using hx
            have := hs.negTrans hlr hx
            rw [hl] at this
            exact Bool.false_ne_true this.symm
          · exact hrv
        · intro i hi hch
          rcases hch with rfl | rfl
          · exact hlr
          · exact hs.1 _
    · rename_i hor
      rw [if_neg hor] at e
      exact absurd rfl e
  · rename_i hr
    rw [if_neg hr] at e
    split
    · rename_i hl
      rw [if_pos hl] at e
      split
      · rename_i hlv
        refine ⟨hlv, ?_⟩
        intro i hi hch
        rcases hch with rfl | rfl
        · exact hs.1 _
        · omega
      · rename_i hlv
        rw [if_neg hlv] at e
        exact absurd rfl e
    · rename_i hl
      rw [if_neg hl] at e
      exact absurd rfl e

theorem siftDownLoop_frame : ∀ (fuel : Nat) (h : Heap_S σ) (curr : Nat),
    h.number + 1 < HALF → curr ≤ h.number → h.number ≤ fuel + curr →
    ∃ h2, siftDownLoop fuel h curr = some h2 ∧ SameFrame h h2 ∧
      (h.number ≤ h.array.length →
        ((List.range h.number).map (rd h2.array)).Perm ((List.range h.number).map (rd h.array))) := by
  intro fuel
  induction fuel with
  | zero =>
    intro h curr hb hc hf
    have hcases := first_of_three_cases h curr (by omega)
    have e : first_of_three h curr = curr := by omega
    exact ⟨h, by simp [siftDownLoop, e], SameFrame.rfl_ h, fun _ => List.Perm.refl _⟩
  | succ fuel ih =>
    intro h curr hb hc hf
    have hcases := first_of_three_cases h curr (by omega)
    unfold siftDownLoop
    simp only
    split
    · rename_i hne
      have hs : curr < first_of_three h curr ∧ first_of_three h curr < h.number := by omega
      obtain ⟨h2, e, fr, pm⟩ := ih
        { h with array := swapBlk h.array (first_of_three h curr) curr }
        (first_of_three h curr) hb (by simp only; omega) (by simp only; omega)
      refine ⟨h2, e, ?_, ?_⟩
      · have f1 : SameFrame h { h with array := swapBlk h.array (first_of_three h curr) curr } :=
          ⟨rfl, rfl, rfl, rfl, by simp [length_swapBlk]⟩
        exact f1.trans_ fr
      · intro hn
        have hl : h.number ≤ (swapBlk h.array (first_of_three h curr) curr).length := by
          rw [length_swapBlk]; exact hn
        have h1 : ((List.range h.number).map (rd h2.array)).Perm ((List.range h.number).map
            (rd (swapBlk h.array (first_of_three h curr) curr))) := pm hl
        have h3 : ((List.range h.number).map
            (rd (swapBlk h.array (first_of_three h curr) curr))).Perm
            ((List.range h.number).map (rd h.array)) := swapBlk_perm hs.2 (by omega) hn
        exact h1.trans h3
    · exact ⟨h, rfl, SameFrame.rfl_ h, fun _ => List.Perm.refl _⟩

theorem downInv_step {h : Heap_S σ} (hs : StrictWeakOrder h.compFun) {curr : Nat}
    (hb : h.number + 1 < HALF) (hn : h.number ≤ h.array.length)
    (e : first_of_three h curr ≠ curr) (hcn : curr < h.number)
    (inv : DownInv h.compFun h.array h.number curr) :
    DownInv h.compFun (swapBlk h.array (first_of_three h curr) curr) h.number
      (first_of_three h curr) := by
  have hcases := first_of_three_cases h curr (by omega)
  obtain ⟨hmv, hoth⟩ := first_of_three_move hs (by omega : curr + 1 < HALF) e
  generalize first_of_three h curr = s at *
  have hs1 : curr < s ∧ s < h.number := by omega
  have hs0 : 0 < s := by omega
  have hsM : s < SIZE_MOD := by simp only [HALF, SIZE_MOD] at *; omega
  have hps : parent s = curr := (parent_eq_iff hs0 hsM).2 (by omega)
  have hsl : s < h.array.length := by omega
  have hcl : curr < h.array.length := by omega
  obtain ⟨inv1, inv2⟩ := inv
  constructor
  · intro i hi0 hin hip
    have hiM : i < SIZE_MOD := by simp only [HALF, SIZE_MOD] at *; omega
    rw [rd_swapBlk hsl hcl, rd_swapBlk hsl hcl]
    by_cases hic : i = curr
    · subst hic
      have hpi : parent i < i := parent_lt hi0
      rw [if_pos rfl, if_neg (by omega), if_neg (by omega)]
      have := inv2 s hs0 hs1.2 hps hi0
      exact this
    · rw [if_neg hic]
      by_cases his : i = s
      · subst his
        rw [if_pos rfl, if_pos hps]
        exact hs.asymm hmv
      · rw [if_neg his, if_neg hip]
        by_cases hq : parent i = curr
        · rw [if_pos hq]
          exact hoth i hin ((parent_eq_iff hi0 hiM).1 hq)
        · rw [if_neg hq]
          exact inv1 i hi0 hin hq
  · intro i hi0 hin hip _
    have hpi : parent i < i := parent_lt hi0
    rw [rd_swapBlk hsl hcl, rd_swapBlk hsl hcl, hps, if_pos rfl, if_neg (by omega),
      if_neg (by omega)]
    have := inv1 i hi0 hin (by omega)
    rw [hip] at this
    exact this

theorem siftDownLoop_ord : ∀ (fuel : Nat) (h h2 : Heap_S σ) (curr : Nat),
    siftDownLoop fuel h curr = some h2 → StrictWeakOrder h.compFun → h.number + 1 < HALF →
    curr ≤ h.number → h.number ≤ h.array.length →
    DownInv h.compFun h.array h.number curr → HeapOrd h.compFun h2.array h.number := by
  have fin : ∀ (h : Heap_S σ) (curr : Nat), h.number + 1 < HALF → curr ≤ h.number →
      first_of_three h curr = curr →
      DownInv h.compFun h.array h.number curr → HeapOrd h.compFun h.array h.number := by
    intro h curr hb hc e inv i hi0 hin
    have hiM : i < SIZE_MOD := by simp only [HALF, SIZE_MOD] at *; omega
    by_cases hq : parent i = curr
    · rw [hq]
      exact first_of_three_stay (by omega : curr + 1 < HALF) e i hin ((parent_eq_iff hi0 hiM).1 hq)
    · exact inv.1 i hi0 hin hq
  intro fuel
  induction fuel with
  | zero =>
    intro h h2 curr e hs hb hc hn inv
    unfold siftDownLoop at e
    split at e
    · exact absurd e (by simp)
    · rename_i hcond
      cases e
      exact fin h curr hb hc (by simpa using hcond) inv
  | succ fuel ih =>
    intro h h2 curr e hs hb hc hn inv
    unfold siftDownLoop at e
    simp only at e
    split at e
    · rename_i hcond
      have hcases := first_of_three_cases h curr (by omega)
      have hcn : curr < h.number := by omega
      exact ih { h with array := swapBlk h.array (first_of_three h curr) curr } h2
        (first_of_three h curr) e hs hb (by simp only; omega)
        (by simp only [length_swapBlk]; exact hn) (downInv_step hs hb hn hcond hcn inv)
    · rename_i hcond
      cases e
      exact fin h curr hb hc (by simpa using hcond) inv

/-- In a heap-ordered block no active entry ranks strictly before the root. -/
theorem heapOrd_root {c : Ptr → Ptr → Bool} (hc : StrictWeakOrder c) {a : List Ptr} {n : Nat}
    (ho : HeapOrd c a n) : ∀ i, i < n → c (rd a i) (rd a 0) = false := by
  intro i
  induction i using Nat.strong_induction_on with
  | _ i ih =>
    intro hin
    by_cases hi0 : i = 0
    · subst hi0; exact hc.1 _
    · have hp : parent i < i := parent_lt (by omega)
      exact hc.negTrans (ho i (by omega) hin) (ih (parent i) hp (by omega))

/-! ### The growth step -/

theorem length_realloc {a : List Ptr} {n : Nat} (h : a.length ≤ n) : (realloc a n).length = n := by
  simp [realloc]; omega

theorem rd_realloc {a : List Ptr} {n i : Nat} (h : a.length ≤ n) (hi : i < a.length) :
    rd (realloc a n) i = rd a i := by
  have h1 : i < n := by omega
  simp [rd, realloc, List.getD_eq_getElem?_getD, List.getElem?_take, h1, List.getElem?_append_left hi]

theorem growIfFull_number (h : Heap_S σ) : (growIfFull h).number = h.number := by
  unfold growIfFull; split <;> rfl

theorem growIfFull_compFun (h : Heap_S σ) : (growIfFull h).compFun = h.compFun := by
  unfold growIfFull; split <;> rfl

theorem growIfFull_dumpEntry (h : Heap_S σ) : (growIfFull h).dumpEntry = h.dumpEntry := by
  unfold growIfFull; split <;> rfl

theorem growIfFull_capacity (h : Heap_S σ) : (growIfFull h).capacity =
    if h.number = h.capacity then (h.capacity + ALLOC_UNIT) % SIZE_MOD else h.capacity := by
  unfold growIfFull; split <;> rfl

theorem growIfFull_spec {h : Heap_S σ} (wf : wellFormed h) (hb : h.number < HALF) :
    (growIfFull h).array.length = (growIfFull h).capacity ∧
    h.number < (growIfFull h).capacity ∧
    ∀ i, i < h.number → rd (growIfFull h).array i = rd h.array i := by
  obtain ⟨w1, w2⟩ := wf
  unfold growIfFull
  split
  · rename_i hfull
    have e : (h.capacity + ALLOC_UNIT) % SIZE_MOD = h.capacity + 5 := by
      simp only [HALF, SIZE_MOD, ALLOC_UNIT] at *; omega
    simp only [e]
    refine ⟨length_realloc (by omega), by omega, ?_⟩
    intro i hi
    exact rd_realloc (by omega) (by omega)
  · exact ⟨w2, by omega, fun _ _ => rfl⟩

/-! ### insertHeapItem -/

theorem active_succ (a : List Ptr) (n : Nat) :
    (List.range (n + 1)).map (rd a) = (List.range n).map (rd a) ++ [rd a n] := by
  simp [List.range_succ]

theorem upInv_init {c : Ptr → Ptr → Bool} {a : List Ptr} {n : Nat} (x : Ptr)
    (ho : HeapOrd c a n) : UpInv c (wr a n x) (n + 1) n := by
  constructor
  · intro i hi0 hin hne
    have hp : parent i < i := parent_lt hi0
    rw [rd_wr_other _ hne, rd_wr_other _ (by omega)]
    exact ho i hi0 (by omega)
  · intro i hi0 hin hp _
    have := parent_lt hi0
    omega

theorem insertHeapItem_spec (h : Heap_S σ) (x : Ptr) :
    ∃ h2, insertHeapItem h x = some h2 ∧
      h2.number = (h.number + 1) % SIZE_MOD ∧
      h2.capacity = (growIfFull h).capacity ∧
      h2.compFun = h.compFun ∧ h2.dumpEntry = h.dumpEntry ∧
      (wellFormed h → h.number < HALF →
        wellFormed h2 ∧ (active h2).Perm (x :: active h) ∧
        (StrictWeakOrder h.compFun → heapOrdered h → heapOrdered h2)) := by
  obtain ⟨h3, e, fr, pm⟩ := siftUpLoop_frame (growIfFull h).number
    { growIfFull h with array := wr (growIfFull h).array (growIfFull h).number x }
    (growIfFull h).number (le_refl _)
  obtain ⟨f1, f2, f3, f4, f5⟩ := fr
  have e0 := e
  simp only [growIfFull_number, growIfFull_compFun, growIfFull_dumpEntry, length_wr]
    at e f1 f2 f3 f4 f5 pm
  refine ⟨{ h3 with number := (h3.number + 1) % SIZE_MOD }, ?_, ?_, f2, f3, f4, ?_⟩
  · simp only [insertHeapItem, siftUp, e0, Option.map_some']
  · simp only [f1]
  · intro wf hb
    obtain ⟨g1, g2, g3⟩ := growIfFull_spec wf hb
    have e1 : (h3.number + 1) % SIZE_MOD = h.number + 1 := by
      rw [f1]; simp only [HALF, SIZE_MOD] at *; omega
    have hpm := pm (h.number + 1) (by omega) (by omega)
    refine ⟨⟨?_, ?_⟩, ?_, ?_⟩
    · simp only [e1, f2]; omega
    · simp only [f5, f2, g1]
    · simp only [active, e1]
      refine hpm.trans ?_
      rw [active_succ, rd_wr_same _ (by omega)]
      have : (List.range h.number).map (rd (wr (growIfFull h).array h.number x)) =
          (List.range h.number).map (rd h.array) := by
        apply List.map_congr_left
        intro i hi
        have hi : i < h.number := List.mem_range.1 hi
        rw [rd_wr_other _ (by omega), g3 i hi]
      rw [this]
      exact List.perm_append_singleton _ _
    · intro hs ho
      simp only [heapOrdered, e1, f3]
      have ho2 : HeapOrd h.compFun (growIfFull h).array h.number := by
        intro i hi0 hin
        have hp : parent i < i := parent_lt hi0
        rw [g3 i hin, g3 (parent i) (by omega)]
        exact ho i hi0 hin
      have := siftUpLoop_ord _ _ h3 _ (h.number + 1) e
        (by simpa [growIfFull_compFun] using hs) (by omega) (by simp only [length_wr]; omega)
        (by simpa [growIfFull_compFun] using upInv_init x ho2)
      simpa [growIfFull_compFun] using this

/-! ### removeTopHeap -/

theorem downInv_init {c : Ptr → Ptr → Bool} {a : List Ptr} {n : Nat} (v : Ptr)
    (ho : HeapOrd c a n) : DownInv c (wr a 0 v) (n - 1) 0 := by
  constructor
  · intro i hi0 hin hne
    rw [rd_wr_other _ (by omega), rd_wr_other _ hne]
    exact ho i hi0 (by omega)
  · intro i _ _ _ h0
    omega

theorem removeTop_perm {a : List Ptr} {n : Nat} (hn0 : 0 < n) (hn : n ≤ a.length) :
    ((List.range n).map (rd a)).Perm
      (rd a 0 :: (List.range (n - 1)).map (rd (wr a 0 (rd a (n - 1))))) := by
  obtain ⟨m, rfl⟩ : ∃ m, n = m + 1 := ⟨n - 1, by omega⟩
  simp only [Nat.add_sub_cancel]
  have e1 : (List.range m).map (rd (wr a 0 (rd a m))) =
      (List.range m).map (rd (swapBlk a 0 m)) := by
    apply List.map_congr_left
    intro i hi
    have hi : i < m := List.mem_range.1 hi
    rw [rd_swapBlk (by omega) (by omega), if_neg (by omega)]
    by_cases h0 : i = 0
    · subst h0
      rw [rd_wr_same _ (by omega), if_pos rfl]
    · rw [rd_wr_other _ h0, if_neg h0]
  have e2 : (List.range (m + 1)).map (rd (swapBlk a 0 m)) =
      (List.range m).map (rd (swapBlk a 0 m)) ++ [rd a 0] := by
    rw [active_succ, rd_swapBlk (by omega) (by omega), if_pos rfl]
  have p1 : ((List.range (m + 1)).map (rd (swapBlk a 0 m))).Perm
      ((List.range (m + 1)).map (rd a)) := swapBlk_perm (by omega) (by omega) hn
  rw [e2] at p1
  rw [e1]
  exact p1.symm.trans (List.perm_append_singleton _ _)

theorem removeTopHeap_spec (h : Heap_S σ) (hn0 : 0 < h.number) (hb : h.number < HALF) :
    ∃ h2, removeTopHeap h = some (topHeap h, h2) ∧
      h2.number = h.number - 1 ∧ h2.capacity = h.capacity ∧
      h2.compFun = h.compFun ∧ h2.dumpEntry = h.dumpEntry ∧
      (wellFormed h →
        wellFormed h2 ∧ (active h).Perm (topHeap h :: active h2) ∧
        (StrictWeakOrder h.compFun → heapOrdered h → heapOrdered h2)) := by
  have el : (h.number + SIZE_MOD - 1) % SIZE_MOD = h.number - 1 := by
    simp only [HALF, SIZE_MOD] at *; omega
  obtain ⟨h3, e, fr, pm⟩ := siftDownLoop_frame (h.number - 1)
    { h with array := wr h.array 0 (rd h.array (h.number - 1)), number := h.number - 1 } 0
    (by simp only; omega) (Nat.zero_le _) (by simp only; omega)
  obtain ⟨f1, f2, f3, f4, f5⟩ := fr
  simp only [length_wr] at f1 f2 f3 f4 f5 pm
  refine ⟨h3, ?_, f1, f2, f3, f4, ?_⟩
  · simp only [removeTopHeap, siftDown, el, e, topHeap, Option.map_some']
  · rintro ⟨w1, w2⟩
    refine ⟨⟨by omega, by omega⟩, ?_, ?_⟩
    · have p1 := pm (by omega)
      have p2 : ((List.range h.number).map (rd h.array)).Perm (rd h.array 0 ::
          (List.range (h.number - 1)).map (rd (wr h.array 0 (rd h.array (h.number - 1))))) :=
        removeTop_perm hn0 (by omega)
      simp only [active, topHeap, f1]
      exact p2.trans (List.Perm.cons _ p1.symm)
    · intro hs ho
      have := siftDownLoop_ord _ _ h3 0 e hs (by simp only; omega) (Nat.zero_le _)
        (by simp only [length_wr]; omega) (downInv_init _ ho)
      simpa [heapOrdered, f1, f3] using this

/-! ### createHeap -/

theorem wr_replicate_null (n i : Nat) : wr (List.replicate n NULL) i NULL = List.replicate n NULL := by
  induction n generalizing i with
  | zero => simp [wr]
  | succ n ih =>
    cases i with
    | zero => simp [wr, List.replicate_succ]
    | succ i =>
      have := ih i
      simp only [wr] at this
      simp [wr, List.replicate_succ, this]

theorem foldl_wr_null (l : List Nat) (n : Nat) :
    l.foldl (fun a i => wr a i NULL) (List.replicate n NULL) = List.replicate n NULL := by
  induction l with
  | nil => rfl
  | cons i l ih => rw [List.foldl_cons, wr_replicate_null, ih]

theorem createHeap_some (capacity : Nat) (c : Ptr → Ptr → Bool) (d : Ptr → FILE → σ → σ) :
    createHeap capacity (some c) (some d) = some
      { capacity := capacity, compFun := c, dumpEntry := d,
        array := List.replicate capacity NULL, number := 0 } := by
  simp only [createHeap, calloc, foldl_wr_null]

theorem createHeap_init (capacity : Nat) (c : Ptr → Ptr → Bool) (d : Ptr → FILE → σ → σ) :
    ∃ h0, createHeap capacity (some c) (some d) = some h0 ∧ wellFormed h0 ∧ heapOrdered h0 ∧
      active h0 = [] ∧ h0.number = 0 ∧ h0.compFun = c ∧ h0.dumpEntry = d ∧
      h0.capacity = capacity ∧ h0.array = List.replicate capacity NULL := by
  refine ⟨_, createHeap_some capacity c d, ⟨Nat.zero_le _, List.length_replicate _ _⟩, ?_,
    by simp [active], rfl, rfl, rfl, rfl, rfl⟩
  intro i _ hi
  exact absurd hi (Nat.not_lt_zero _)

/-! ### Call sequences -/

theorem insertAll_spec : ∀ (xs : List Ptr) (h : Heap_S σ), wellFormed h →
    h.number + xs.length < HALF →
    ∃ h1, insertAll xs h = some h1 ∧ wellFormed h1 ∧ h1.number = h.number + xs.length ∧
      h1.compFun = h.compFun ∧ h1.dumpEntry = h.dumpEntry ∧
      (active h1).Perm (active h ++ xs) ∧
      (StrictWeakOrder h.compFun → heapOrdered h → heapOrdered h1) := by
  intro xs
  induction xs with
  | nil =>
    intro h wf _
    exact ⟨h, rfl, wf, rfl, rfl, rfl, by simp, fun _ ho => ho⟩
  | cons x xs ih =>
    intro h wf hb
    simp only [List.length_cons] at hb
    obtain ⟨h2, e, en, _, ec, ed, rest⟩ := insertHeapItem_spec h x
    obtain ⟨wf2, pm2, ord2⟩ := rest wf (by omega)
    have en2 : h2.number = h.number + 1 := by
      rw [en]; simp only [HALF, SIZE_MOD] at *; omega
    obtain ⟨h1, e1, wf1, n1, c1, d1, pm1, ord1⟩ := ih h2 wf2 (by omega)
    refine ⟨h1, ?_, wf1, ?_, c1.trans ec, d1.trans ed, ?_, ?_⟩
    · simp only [insertAll, e, Option.some_bind, e1]
    · rw [n1, en2, List.length_cons]; omega
    · refine pm1.trans ?_
      refine (List.Perm.append_right xs pm2).trans ?_
      simp only [List.cons_append]
      exact List.perm_middle.symm
    · intro hs ho
      exact ord1 (by rw [ec]; exact hs) (ord2 hs ho)

theorem heapOrdered_top {h : Heap_S σ} (hs : StrictWeakOrder h.compFun) (ho : heapOrdered h) :
    ∀ x, x ∈ active h → h.compFun x (topHeap h) = false := by
  intro x hx
  simp only [active, List.mem_map, List.mem_range] at hx
  obtain ⟨i, hi, rfl⟩ := hx
  exact heapOrd_root hs ho i hi

theorem topHeap_mem_active {h : Heap_S σ} (hn : 0 < h.number) : topHeap h ∈ active h := by
  simp only [active, List.mem_map, List.mem_range]
  exact ⟨0, hn, rfl⟩

theorem drain_spec : ∀ (n : Nat) (h : Heap_S σ), wellFormed h → n ≤ h.number → h.number < HALF →
    ∃ ys h2, drain n h = some (ys, h2) ∧ wellFormed h2 ∧ h2.number = h.number - n ∧
      h2.compFun = h.compFun ∧ ys.length = n ∧
      (active h).Perm (ys ++ active h2) ∧
      (StrictWeakOrder h.compFun → heapOrdered h →
        heapOrdered h2 ∧ ys.Pairwise (fun a b => h.compFun b a = false) ∧
        ∀ y, y ∈ ys → ∀ x, x ∈ active h2 → h.compFun x y = false) := by
  intro n
  induction n with
  | zero =>
    intro h wf _ _
    exact ⟨[], h, rfl, wf, rfl, rfl, rfl, by simp, fun _ ho => ⟨ho, List.Pairwise.nil, by simp⟩⟩
  | succ n ih =>
    intro h wf hn hb
    obtain ⟨h1, e, en, _, ec, _, rest⟩ := removeTopHeap_spec h (by omega) hb
    obtain ⟨wf1, pm1, ord1⟩ := rest wf
    obtain ⟨ys, h2, e2, wf2, n2, c2, l2, pm2, ord2⟩ := ih h1 wf1 (by omega) (by omega)
    refine ⟨topHeap h :: ys, h2, ?_, wf2, by omega, c2.trans ec, by simp [l2], ?_, ?_⟩
    · simp only [drain, e, Option.some_bind, e2, Option.map_some']
    · exact pm1.trans (List.Perm.cons _ pm2)
    · intro hs ho
      have ho1 := ord1 hs ho
      obtain ⟨ho2, pw, cross⟩ := ord2 (by rw [ec]; exact hs) ho1
      rw [ec] at pw cross
      have htop := heapOrdered_top hs ho
      have hsub : ∀ x, x ∈ ys ++ active h2 → h.compFun x (topHeap h) = false := by
        intro x hx
        exact htop x (pm1.symm.subset (List.mem_cons_of_mem _ (pm2.symm.subset hx)))
      refine ⟨ho2, ?_, ?_⟩
      · rw [List.pairwise_cons]
        exact ⟨fun y hy => hsub y (List.mem_append_left _ hy), pw⟩
      · intro y hy x hx
        rcases List.mem_cons.1 hy with rfl | hy
        · exact hsub x (List.mem_append_right _ hx)
        · exact cross y hy x hx

theorem runCalls_spec : ∀ (cs : List Call) (h0 : Heap_S σ), wellFormed h0 →
    admissible h0.number cs = true → h0.number + cs.length < HALF →
    ∃ h outs, runCalls cs h0 = some (h, outs) ∧ wellFormed h ∧ h.compFun = h0.compFun ∧
      h.number + removes cs = h0.number + (inserted cs).length ∧
      (active h ++ outs).Perm (active h0 ++ inserted cs) ∧
      (StrictWeakOrder h0.compFun → heapOrdered h0 → heapOrdered h) := by
  intro cs
  induction cs with
  | nil =>
    intro h0 wf _ _
    exact ⟨h0, [], rfl, wf, rfl, rfl, List.Perm.refl _, fun _ ho => ho⟩
  | cons cl cs ih =>
    intro h0 wf hadm hb
    simp only [List.length_cons] at hb
    cases cl with
    | insert x =>
      obtain ⟨h1, e, en, _, ec, _, rest⟩ := insertHeapItem_spec h0 x
      obtain ⟨wf1, pm1, ord1⟩ := rest wf (by omega)
      have en1 : h1.number = h0.number + 1 := by
        rw [en]; simp only [HALF, SIZE_MOD] at *; omega
      obtain ⟨h, outs, e2, wf2, c2, n2, pm2, ord2⟩ := ih h1 wf1
        (by rw [en1]; simpa [admissible] using hadm) (by omega)
      refine ⟨h, outs, ?_, wf2, c2.trans ec, ?_, ?_, ?_⟩
      · simp only [runCalls, e, Option.some_bind, e2]
      · simp only [removes, inserted, List.length_cons]; omega
      · refine pm2.trans ((List.Perm.append_right _ pm1).trans ?_)
        simp only [List.cons_append, inserted]
        exact List.perm_middle.symm
      · intro hs ho
        exact ord2 (by rw [ec]; exact hs) (ord1 hs ho)
    | removeTop =>
      have hpos : 0 < h0.number := by
        cases hn : h0.number with
        | zero => rw [hn] at hadm; simp [admissible] at hadm
        | succ m => omega
      obtain ⟨h1, e, en, _, ec, _, rest⟩ := removeTopHeap_spec h0 hpos (by omega)
      obtain ⟨wf1, pm1, ord1⟩ := rest wf
      have hadm1 : admissible h1.number cs = true := by
        obtain ⟨m, hm⟩ : ∃ m, h0.number = m + 1 := ⟨h0.number - 1, by omega⟩
        rw [hm] at hadm
        rw [en, hm]
        simpa [admissible] using hadm
      obtain ⟨h, outs, e2, wf2, c2, n2, pm2, ord2⟩ := ih h1 wf1 hadm1 (by omega)
      refine ⟨h, topHeap h0 :: outs, ?_, wf2, c2.trans ec, ?_, ?_, ?_⟩
      · simp only [runCalls, e, Option.some_bind, e2, Option.map_some']
      · simp only [removes, inserted]; omega
      · simp only [inserted]
        refine List.perm_middle.trans ?_
        refine (List.Perm.cons _ pm2).trans ?_
        exact ((List.Perm.append_right _ pm1).symm.trans (List.Perm.refl _)).symm.symm
      · intro hs ho
        exact ord2 (by rw [ec]; exact hs) (ord1 hs ho)

theorem admissible_take : ∀ (cs : List Call) (n k : Nat), admissible n cs = true →
    admissible n (cs.take k) = true := by
  intro cs
  induction cs with
  | nil => intro n k h; simpa using h
  | cons cl cs ih =>
    intro n k h
    cases k with
    | zero => simp [admissible]
    | succ k =>
      cases cl with
      | insert x =>
        simp only [List.take_succ_cons, admissible] at h ⊢
        exact ih _ _ h
      | removeTop =>
        cases n with
        | zero => simp [admissible] at h
        | succ n =>
          simp only [List.take_succ_cons, admissible] at h ⊢
          exact ih _ _ h

theorem ltPtr_strictWeakOrder : StrictWeakOrder ltPtr := by
  refine ⟨?_, ?_, ?_⟩
  · intro a; simp [ltPtr]
  · intro a b d h1 h2
    simp only [ltPtr, decide_eq_true_eq] at *
    exact lt_trans h1 h2
  · intro a b d h1 h2 h3 h4
    simp only [ltPtr, decide_eq_false_iff_not, not_lt] at *
    exact ⟨le_trans h3 h1, le_trans h2 h4⟩

/-! ### dumpHeap -/

theorem dumpLoop_spec (h : Heap_S σ) (outfp : FILE) (hn : h.number < SIZE_MOD) :
    ∀ (fuel i : Nat) (w : σ), i ≤ h.number → h.number ≤ fuel + i →
      dumpLoop h outfp fuel i w = some
        ((List.range' i (h.number - i)).foldl (fun w1 j => h.dumpEntry (rd h.array j) outfp w1) w) := by
  intro fuel
  induction fuel with
  | zero =>
    intro i w hi hf
    have : h.number - i = 0 := by omega
    simp only [dumpLoop, this, List.range'_zero, List.foldl_nil]
    rw [if_neg (by omega)]
  | succ fuel ih =>
    intro i w hi hf
    unfold dumpLoop
    split
    · rename_i hlt
      have e1 : (i + 1) % SIZE_MOD = i + 1 := Nat.mod_eq_of_lt (show i + 1 < SIZE_MOD by omega)
      rw [e1, ih (i + 1) _ (by omega) (by omega)]
      have e2 : h.number - i = (h.number - (i + 1)) + 1 := by omega
      rw [e2, List.range'_succ, List.foldl_cons]
    · have : h.number - i = 0 := by omega
      simp only [this, List.range'_zero, List.foldl_nil]

theorem dumpHeap_spec (h : Heap_S σ) (outfp : FILE) (w : σ) (hn : h.number < SIZE_MOD) :
    dumpHeap h outfp w = some (h, (active h).foldl (fun w1 p => h.dumpEntry p outfp w1) w) := by
  simp only [dumpHeap, dumpLoop_spec h outfp hn h.number 0 w (Nat.zero_le _) (le_refl _),
    Option.map_some', active, List.foldl_map, Nat.sub_zero, List.range_eq_range']

theorem foldl_logEntry (l : List Ptr) (outfp : FILE) (w : List (Ptr × FILE)) :
    l.foldl (fun w1 p => logEntry p outfp w1) w = w ++ l.map (fun p => (p, outfp)) := by
  induction l generalizing w with
  | nil => simp
  | cons p l ih =>
    rw [List.foldl_cons, ih]
    simp [logEntry]

/-! ### helpFree -/

theorem helpFree_loop (a : List Ptr) : ∀ n,
    ((List.range n).foldl helpFreeStep ([], a)).1 =
        (((List.range n).map (rd a)).filter (fun p => decide (p ≠ NULL))).map Freed.item ∧
      ∀ j, n ≤ j → rd ((List.range n).foldl helpFreeStep ([], a)).2 j = rd a j := by
  intro n
  induction n with
  | zero => simp
  | succ n ih =>
    obtain ⟨ih1, ih2⟩ := ih
    rw [List.range_succ, List.foldl_append, List.foldl_cons, List.foldl_nil]
    generalize (List.range n).foldl helpFreeStep ([], a) = acc at ih1 ih2
    have hn := ih2 n (le_refl _)
    unfold helpFreeStep
    split
    · rename_i hne
      rw [hn] at hne
      constructor
      · simp only [ih1, hn, List.map_append, List.map_cons, List.map_nil, List.filter_append]
        simp [hne]
      · intro j hj
        simp only
        rw [rd_wr_other _ (by omega), ih2 j (by omega)]
    · rename_i hne
      rw [hn] at hne
      constructor
      · simp only [ih1, List.map_append, List.map_cons, List.map_nil, List.filter_append]
        have : rd a n = NULL := by simpa using hne
        simp [this]
      · intro j hj
        exact ih2 j (by omega)

theorem destroyHeap_spec (h : Heap_S σ) :
    destroyHeap (some h) = some
      ((if h.number ≠ 0 then
          (((List.range h.capacity).map (rd h.array)).filter (fun p => decide (p ≠ NULL))).map
            Freed.item
        else []) ++ [Freed.block, Freed.control]) := by
  simp only [destroyHeap, helpFree]
  split
  · rw [(helpFree_loop h.array h.capacity).1]; simp
  · simp

/-! ### The claims -/

/-- C1: for a strict weak order `c`, any initial capacity and any list `xs` of handles,
creating a heap, inserting the elements of `xs` in order and then removing the top
`|xs|` times succeeds and returns a sequence `ys` that is a permutation of `xs` and
is sorted (for positions `i < j`, `c ys[j] ys[i]` is false); the size is `0` afterwards. -/
theorem C1_insert_then_drain_sorts (c : Ptr → Ptr → Bool) (d : Ptr → FILE → σ → σ)
    (capacity : Nat) (xs : List Ptr) (hc : StrictWeakOrder c) (hlen : xs.length < HALF) :
    ∃ h0 h1 ys h2, createHeap capacity (some c) (some d) = some h0 ∧
      insertAll xs h0 = some h1 ∧ drain xs.length h1 = some (ys, h2) ∧
      ys.Perm xs ∧ ys.Pairwise (fun a b => c b a = false) ∧ sizeHeap h2 = 0 := by
  obtain ⟨h0, e0, wf0, ho0, a0, z0, c0, _⟩ := createHeap_init capacity c d
  obtain ⟨h1, e1, wf1, n1, c1, _, pm1, ord1⟩ := insertAll_spec xs h0 wf0 (by omega)
  obtain ⟨ys, h2, e2, _, n2, _, _, pm2, ord2⟩ := drain_spec xs.length h1 wf1 (by omega) (by omega)
  obtain ⟨_, pw, _⟩ := ord2 (by rw [c1, c0]; exact hc) (ord1 (by rw [c0]; exact hc) ho0)
  have hz : h2.number = 0 := by omega
  have a2 : active h2 = [] := by simp [active, hz]
  refine ⟨h0, h1, ys, h2, e0, e1, e2, ?_, ?_, hz⟩
  · rw [a2, List.append_nil] at pm2
    rw [a0, List.nil_append] at pm1
    exact pm2.symm.trans pm1
  · rw [c1, c0] at pw
    exact pw

/-- Witness of C1: less-than on integers and `xs = [5, 3, 8, 1]`; the top after the
inserts is `1` and the removals return `[1, 3, 5, 8]`. -/
theorem C1_insert_then_drain_sorts_witness :
    (∃ h0 h1 ys h2, createHeap 2 (some ltPtr) (some logEntry) = some h0 ∧
      insertAll [5, 3, 8, 1] h0 = some h1 ∧ drain [5, 3, 8, 1].length h1 = some (ys, h2) ∧
      ys.Perm [5, 3, 8, 1] ∧ ys.Pairwise (fun a b => ltPtr b a = false) ∧ sizeHeap h2 = 0) ∧
    ((createHeap 2 (some ltPtr) (some logEntry)).bind (insertAll [5, 3, 8, 1])).map topHeap
      = some 1 ∧
    (((createHeap 2 (some ltPtr) (some logEntry)).bind (insertAll [5, 3, 8, 1])).bind
      (drain 4)).map (fun r => (r.1, sizeHeap r.2)) = some ([1, 3, 5, 8], 0) :=
  ⟨C1_insert_then_drain_sorts ltPtr logEntry 2 [5, 3, 8, 1] ltPtr_strictWeakOrder (by decide),
    by decide, by decide⟩

/-- C2: for a strict weak order `c` and every heap reached from `createHeap` by a
sequence of inserts and of removals made on a non-empty heap, the active entries
together with the handles already removed are the handles inserted, and when the size
is positive `topHeap` is an active entry before which no active entry ranks. -/
theorem C2_top_ranks_first (c : Ptr → Ptr → Bool) (d : Ptr → FILE → σ → σ)
    (capacity : Nat) (cs : List Call) (hc : StrictWeakOrder c)
    (hadm : admissible 0 cs = true) (hlen : cs.length < HALF) :
    ∃ h0 h outs, createHeap capacity (some c) (some d) = some h0 ∧
      runCalls cs h0 = some (h, outs) ∧
      (active h ++ outs).Perm (inserted cs) ∧
      (0 < sizeHeap h →
        topHeap h ∈ active h ∧ ∀ x, x ∈ active h → c x (topHeap h) = false) := by
  obtain ⟨h0, e0, wf0, ho0, a0, z0, c0, _⟩ := createHeap_init capacity c d
  obtain ⟨h, outs, e, _, ec, _, pm, ord⟩ := runCalls_spec cs h0 wf0 (by rw [z0]; exact hadm)
    (by omega)
  refine ⟨h0, h, outs, e0, e, ?_, ?_⟩
  · rw [a0, List.nil_append] at pm
    exact pm
  · intro hpos
    have hs : StrictWeakOrder h.compFun := by rw [ec, c0]; exact hc
    have := heapOrdered_top hs (ord (by rw [c0]; exact hc) ho0)
    rw [ec, c0] at this
    exact ⟨topHeap_mem_active hpos, this⟩

/-- Witness of C2: insert 5, insert 3, remove, insert 8 leaves 5 on top of `[5, 8]`. -/
theorem C2_top_ranks_first_witness :
    (∃ h0 h outs, createHeap 0 (some ltPtr) (some logEntry) = some h0 ∧
      runCalls [Call.insert 5, Call.insert 3, Call.removeTop, Call.insert 8] h0
        = some (h, outs) ∧
      (active h ++ outs).Perm
        (inserted [Call.insert 5, Call.insert 3, Call.removeTop, Call.insert 8]) ∧
      (0 < sizeHeap h →
        topHeap h ∈ active h ∧ ∀ x, x ∈ active h → ltPtr x (topHeap h) = false)) ∧
    ((createHeap 0 (some ltPtr) (some logEntry)).bind
      (runCalls [Call.insert 5, Call.insert 3, Call.removeTop, Call.insert 8])).map
        (fun r => (topHeap r.1, active r.1, r.2)) = some (5, [5, 8], [3]) :=
  ⟨C2_top_ranks_first ltPtr logEntry 0
    [Call.insert 5, Call.insert 3, Call.removeTop, Call.insert 8] ltPtr_strictWeakOrder
    (by decide) (by decide), by decide⟩

/-- C3: with no assumption on `compFun`, `insertHeapItem` raises `sizeHeap` by exactly 1,
`removeTopHeap` on a non-empty heap lowers it by exactly 1, and at every point `k` of a
call sequence started from `createHeap`, in which no removal meets an empty heap,
`sizeHeap` is the number of inserts minus the number of removals made so far. -/
theorem C3_size_counts_calls (aHeap : Heap_S σ) (item : Ptr) (c : Ptr → Ptr → Bool)
    (d : Ptr → FILE → σ → σ) (capacity : Nat) (cs : List Call) (k : Nat)
    (hb : aHeap.number < HALF) (hadm : admissible 0 cs = true) (hlen : cs.length < HALF) :
    (∃ h2, insertHeapItem aHeap item = some h2 ∧ sizeHeap h2 = sizeHeap aHeap + 1) ∧
    (0 < aHeap.number →
      ∃ t h2, removeTopHeap aHeap = some (t, h2) ∧ sizeHeap h2 + 1 = sizeHeap aHeap) ∧
    (∃ h0 h outs, createHeap capacity (some c) (some d) = some h0 ∧
      runCalls (cs.take k) h0 = some (h, outs) ∧
      sizeHeap h + removes (cs.take k) = (inserted (cs.take k)).length ∧
      sizeHeap h = (inserted (cs.take k)).length - removes (cs.take k)) := by
  refine ⟨?_, ?_, ?_⟩
  · obtain ⟨h2, e, en, _⟩ := insertHeapItem_spec aHeap item
    refine ⟨h2, e, ?_⟩
    simp only [sizeHeap, en]
    simp only [HALF, SIZE_MOD] at *
    omega
  · intro hpos
    obtain ⟨h2, e, en, _⟩ := removeTopHeap_spec aHeap hpos hb
    refine ⟨_, h2, e, ?_⟩
    simp only [sizeHeap, en]
    omega
  · obtain ⟨h0, e0, wf0, _, _, z0, _⟩ := createHeap_init capacity c d
    have hl : (cs.take k).length ≤ cs.length := by simp
    obtain ⟨h, outs, e, _, _, en, _⟩ := runCalls_spec (cs.take k) h0 wf0
      (by rw [z0]; exact admissible_take cs 0 k hadm) (by omega)
    refine ⟨h0, h, outs, e0, e, ?_, ?_⟩
    · simp only [sizeHeap]; omega
    · simp only [sizeHeap]; omega

/-- Witness of C3: a heap of one item, and the sequence insert, insert, remove, insert. -/
theorem C3_size_counts_calls_witness :
    ((∃ h2, insertHeapItem heapOne 4 = some h2 ∧ sizeHeap h2 = sizeHeap heapOne + 1) ∧
    (0 < heapOne.number →
      ∃ t h2, removeTopHeap heapOne = some (t, h2) ∧ sizeHeap h2 + 1 = sizeHeap heapOne) ∧
    (∃ h0 h outs, createHeap 1 (some ltPtr) (some logEntry) = some h0 ∧
      runCalls ([Call.insert 5, Call.insert 3, Call.removeTop, Call.insert 8].take 3) h0
        = some (h, outs) ∧
      sizeHeap h + removes ([Call.insert 5, Call.insert 3, Call.removeTop, Call.insert 8].take 3)
        = (inserted ([Call.insert 5, Call.insert 3, Call.removeTop, Call.insert 8].take 3)).length ∧
      sizeHeap h =
        (inserted ([Call.insert 5, Call.insert 3, Call.removeTop, Call.insert 8].take 3)).length
          - removes ([Call.insert 5, Call.insert 3, Call.removeTop, Call.insert 8].take 3))) ∧
    ((createHeap 1 (some ltPtr) (some logEntry)).bind
      (runCalls [Call.insert 5, Call.insert 3, Call.removeTop])).map (fun r => sizeHeap r.1)
        = some 1 :=
  ⟨C3_size_counts_calls heapOne 4 ltPtr logEntry 1
    [Call.insert 5, Call.insert 3, Call.removeTop, Call.insert 8] 3
    (by decide) (by decide) (by decide), by decide⟩

/-- C4: on a heap with `number > 0`, `removeTopHeap` returns exactly the handle that
slot 0 held before the call, which is what `topHeap` returns just before the removal. -/
theorem C4_removeTop_returns_slot0 (aHeap : Heap_S σ) (hpos : 0 < aHeap.number)
    (hb : aHeap.number < HALF) :
    (∃ h2, removeTopHeap aHeap = some (rd aHeap.array 0, h2)) ∧
      topHeap aHeap = rd aHeap.array 0 := by
  obtain ⟨h2, e, _⟩ := removeTopHeap_spec aHeap hpos hb
  exact ⟨⟨h2, e⟩, rfl⟩

/-- Witness of C4: the full heap `[2, 9, 4]` returns 2. -/
theorem C4_removeTop_returns_slot0_witness :
    ((∃ h2, removeTopHeap heapFull = some (rd heapFull.array 0, h2)) ∧
      topHeap heapFull = rd heapFull.array 0) ∧
    (removeTopHeap heapFull).map (fun r => r.1) = some 2 :=
  ⟨C4_removeTop_returns_slot0 heapFull (by decide) (by decide), by decide⟩

/-- C5: for every `compFun`, on a heap whose block has `capacity` slots holding the
active entries: the multiset of active handles after `insertHeapItem aHeap item` is the
one before plus `item`, whether or not the block is full; when it is full the growth
step gives a block of `capacity + ALLOC_UNIT` slots and leaves every slot below
`number` unchanged; and after `removeTopHeap` on a non-empty heap the multiset is the
one before minus one occurrence of the handle returned. -/
theorem C5_contents_preserved (aHeap : Heap_S σ) (item : Ptr) (wf : wellFormed aHeap)
    (hb : aHeap.number < HALF) :
    (∃ h2, insertHeapItem aHeap item = some h2 ∧
      (↑(active h2) : Multiset Ptr) = item ::ₘ (↑(active aHeap) : Multiset Ptr)) ∧
    (aHeap.number = aHeap.capacity →
      (growIfFull aHeap).array.length = aHeap.capacity + ALLOC_UNIT) ∧
    (∀ i, i < aHeap.number → rd (growIfFull aHeap).array i = rd aHeap.array i) ∧
    (0 < aHeap.number → ∃ t h2, removeTopHeap aHeap = some (t, h2) ∧
      (↑(active h2) : Multiset Ptr) = (↑(active aHeap) : Multiset Ptr).erase t) := by
  obtain ⟨g1, g2, g3⟩ := growIfFull_spec wf hb
  refine ⟨?_, ?_, g3, ?_⟩
  · obtain ⟨h2, e, _, _, _, _, rest⟩ := insertHeapItem_spec aHeap item
    obtain ⟨_, pm, _⟩ := rest wf hb
    refine ⟨h2, e, ?_⟩
    rw [Multiset.cons_coe]
    exact Multiset.coe_eq_coe.2 pm
  · intro hfull
    rw [g1, growIfFull_capacity, if_pos hfull]
    have := wf.1
    simp only [HALF, SIZE_MOD, ALLOC_UNIT] at *
    omega
  · intro hpos
    obtain ⟨h2, e, _, _, _, _, rest⟩ := removeTopHeap_spec aHeap hpos hb
    obtain ⟨_, pm, _⟩ := rest wf
    refine ⟨_, h2, e, ?_⟩
    have h1 : (↑(active aHeap) : Multiset Ptr) = topHeap aHeap ::ₘ (↑(active h2) : Multiset Ptr) := by
      rw [Multiset.cons_coe]
      exact Multiset.coe_eq_coe.2 pm
    rw [h1, Multiset.erase_cons_head]

/-- Witness of C5: the full heap `[2, 9, 4]`, whose insert grows the block. -/
theorem C5_contents_preserved_witness :
    ((∃ h2, insertHeapItem heapFull 1 = some h2 ∧
      (↑(active h2) : Multiset Ptr) = 1 ::ₘ (↑(active heapFull) : Multiset Ptr)) ∧
    (heapFull.number = heapFull.capacity →
      (growIfFull heapFull).array.length = heapFull.capacity + ALLOC_UNIT) ∧
    (∀ i, i < heapFull.number → rd (growIfFull heapFull).array i = rd heapFull.array i) ∧
    (0 < heapFull.number → ∃ t h2, removeTopHeap heapFull = some (t, h2) ∧
      (↑(active h2) : Multiset Ptr) = (↑(active heapFull) : Multiset Ptr).erase t)) ∧
    (insertHeapItem heapFull 1).map (fun h => (h.array, h.number, h.capacity))
      = some ([1, 2, 4, 9, 0, 0, 0, 0], 4, 8) ∧
    (removeTopHeap heapFull).map (fun r => (r.1, active r.2)) = some (2, [4, 9]) :=
  ⟨C5_contents_preserved heapFull 1 (by decide) (by decide), by decide, by decide⟩

theorem siftDownLoop_stay (fuel : Nat) (h : Heap_S σ) (k : Nat)
    (e : first_of_three h k = k) : siftDownLoop fuel h k = some h := by
  cases fuel with
  | zero => simp only [siftDownLoop, e, ne_eq, not_true_eq_false, if_false]
  | succ f => simp only [siftDownLoop, e, ne_eq, not_true_eq_false, if_false]

theorem siftDownLoop_sameFrame : ∀ (fuel : Nat) (h h2 : Heap_S σ) (k : Nat),
    siftDownLoop fuel h k = some h2 → SameFrame h h2 := by
  intro fuel
  induction fuel with
  | zero =>
    intro h h2 k e
    unfold siftDownLoop at e
    split at e
    · exact absurd e (by simp)
    · cases e; exact SameFrame.rfl_ _
  | succ fuel ih =>
    intro h h2 k e
    unfold siftDownLoop at e
    simp only at e
    split at e
    · have f1 : SameFrame h { h with array := swapBlk h.array (first_of_three h k) k } :=
        ⟨rfl, rfl, rfl, rfl, by simp [length_swapBlk]⟩
      exact f1.trans_ (ih _ h2 _ e)
    · cases e; exact SameFrame.rfl_ _

theorem removeTopHeap_empty_eq (h : Heap_S σ) (hz : h.number = 0) :
    removeTopHeap h =
      (siftDown (emptyReadState h (rd h.array (SIZE_MOD - 1))) 0).map
        (fun h3 => (topHeap h, h3)) := by
  have el : (h.number + SIZE_MOD - 1) % SIZE_MOD = SIZE_MOD - 1 := by
    rw [hz]; simp only [SIZE_MOD]
  simp only [removeTopHeap, el, emptyReadState, topHeap]

theorem siftDown_emptyReadState (h : Heap_S σ) (v : Ptr)
    (e : first_of_three (emptyReadState h v) 0 = 0) :
    siftDown (emptyReadState h v) 0 = some (emptyReadState h v) :=
  siftDownLoop_stay _ _ _ e

theorem first_of_three_heapEmpty (v : Ptr) : first_of_three (emptyReadState heapEmpty v) 0 = 0 := by
  have hl : lChild 0 = 1 := by decide
  have hr : rChild 0 = 2 := by decide
  have h1 : rd (wr heapEmpty.array 0 v) 1 = 0 := by
    rw [rd_wr_other _ (by omega)]; rfl
  have h2 : rd (wr heapEmpty.array 0 v) 2 = 0 := by
    rw [rd_wr_other _ (by omega)]; rfl
  unfold first_of_three
  simp only [hl, hr, emptyReadState, h1, h2]
  have hc : heapEmpty.compFun 0 (rd (wr heapEmpty.array 0 v) 0) = false := by
    simp [heapEmpty, gtPtr]
  simp only [hc, Bool.or_self, Bool.false_eq_true, if_false, ite_self]

/-- C6 fails on the code: `removeTopHeap` has no emptiness check. On the empty heap that
`createHeap 3` returns for the greater-than order it returns the `NULL` of slot 0 and
leaves a heap whose count has wrapped around to `2 ^ 64 - 1`. The read of
`array[number - 1]` lies outside the block; whatever handle `v` it yields, `siftDown`
finds no child of the root ranking before `v` and returns the heap with count
`2 ^ 64 - 1`. -/
theorem C6_counterexample_empty_not_checked :
    createHeap 3 (some gtPtr) (some logEntry) = some heapEmpty ∧ sizeHeap heapEmpty = 0 ∧
    (removeTopHeap heapEmpty).map (fun r => (r.1, sizeHeap r.2, r.2.array))
      = some (NULL, 18446744073709551615, [0, 0, 0]) ∧
    ∀ v, (siftDown (emptyReadState heapEmpty v) 0).map (fun h => (sizeHeap h, h.array))
      = some (18446744073709551615, [v, 0, 0]) := by
  refine ⟨rfl, rfl, by decide, ?_⟩
  intro v
  rw [siftDown_emptyReadState heapEmpty v (first_of_three_heapEmpty v)]
  rfl

/-- C6 as amended: on an empty heap `removeTopHeap` triggers no precondition failure,
for it makes no emptiness check. It is the `siftDown` of the state in which slot 0 holds
the read of `array[number - 1]` and the count has wrapped to `2 ^ 64 - 1`; whenever it
returns, it returns the handle of slot 0 and a heap with count `2 ^ 64 - 1` and the same
capacity; and it does return when, whatever handle the read yields, `first_of_three`
stays at the root. -/
theorem C6_removeTop_unchecked (aHeap : Heap_S σ) (hz : aHeap.number = 0) :
    removeTopHeap aHeap =
      (siftDown (emptyReadState aHeap (rd aHeap.array (SIZE_MOD - 1))) 0).map
        (fun h3 => (topHeap aHeap, h3)) ∧
    (∀ r, removeTopHeap aHeap = some r →
      r.1 = topHeap aHeap ∧ sizeHeap r.2 = SIZE_MOD - 1 ∧ r.2.capacity = aHeap.capacity) ∧
    (∀ v, first_of_three (emptyReadState aHeap v) 0 = 0 →
      siftDown (emptyReadState aHeap v) 0 = some (emptyReadState aHeap v)) ∧
    ((∀ v, first_of_three (emptyReadState aHeap v) 0 = 0) →
      removeTopHeap aHeap =
        some (topHeap aHeap, emptyReadState aHeap (rd aHeap.array (SIZE_MOD - 1)))) := by
  have eq := removeTopHeap_empty_eq aHeap hz
  refine ⟨eq, ?_, fun v e => siftDown_emptyReadState aHeap v e, ?_⟩
  · intro r hr
    rw [eq] at hr
    obtain ⟨h3, e3, rfl⟩ := Option.map_eq_some'.1 hr
    obtain ⟨f1, f2, _⟩ := siftDownLoop_sameFrame _ _ _ _ e3
    exact ⟨rfl, f1, f2⟩
  · intro hall
    rw [eq, siftDown_emptyReadState aHeap _ (hall _)]
    rfl

/-- Witness of C6 as amended: the empty heap of `createHeap 3` with the greater-than
order; the call returns `NULL` and a heap of count `2 ^ 64 - 1`. -/
theorem C6_removeTop_unchecked_witness :
    (removeTopHeap heapEmpty =
      (siftDown (emptyReadState heapEmpty (rd heapEmpty.array (SIZE_MOD - 1))) 0).map
        (fun h3 => (topHeap heapEmpty, h3)) ∧
    (∀ r, removeTopHeap heapEmpty = some r →
      r.1 = topHeap heapEmpty ∧ sizeHeap r.2 = SIZE_MOD - 1 ∧
        r.2.capacity = heapEmpty.capacity) ∧
    (∀ v, first_of_three (emptyReadState heapEmpty v) 0 = 0 →
      siftDown (emptyReadState heapEmpty v) 0 = some (emptyReadState heapEmpty v)) ∧
    ((∀ v, first_of_three (emptyReadState heapEmpty v) 0 = 0) →
      removeTopHeap heapEmpty =
        some (topHeap heapEmpty,
          emptyReadState heapEmpty (rd heapEmpty.array (SIZE_MOD - 1))))) ∧
    (removeTopHeap heapEmpty).map (fun r => (r.1, sizeHeap r.2)) =
      some (NULL, 18446744073709551615) :=
  ⟨C6_removeTop_unchecked heapEmpty (by decide), by decide⟩

/-- C8: `dumpHeap` returns, and applies `dumpEntry` to `array[0]`, ..., `array[number-1]`
in that order, each with the given stream: the world afterwards is the fold of
`dumpEntry` over the active entries, the logging callback records exactly the calls
`(array[i], outfp)` for `i < number` in order, `sizeHeap` of them, and the heap
returned is the heap given, so later calls see the same state. -/
theorem C8_dumpHeap_visits_active (aHeap : Heap_S σ) (outfp : FILE) (w : σ)
    (hn : aHeap.number < SIZE_MOD) :
    dumpHeap aHeap outfp w =
      some (aHeap, (active aHeap).foldl (fun w1 p => aHeap.dumpEntry p outfp w1) w) ∧
    dumpHeap (recording aHeap) outfp [] =
      some (recording aHeap, (active aHeap).map (fun p => (p, outfp))) ∧
    ((active aHeap).map (fun p => (p, outfp))).length = sizeHeap aHeap ∧
    (∀ i, i < aHeap.number → (active aHeap)[i]? = some (rd aHeap.array i)) := by
  refine ⟨dumpHeap_spec aHeap outfp w hn, ?_, by simp [active, sizeHeap], ?_⟩
  · have := dumpHeap_spec (recording aHeap) outfp [] hn
    rw [this]
    have e : (recording aHeap).dumpEntry = logEntry := rfl
    have e2 : active (recording aHeap) = active aHeap := rfl
    rw [e, e2, foldl_logEntry, List.nil_append]
  · intro i hi
    simp [active, hi]

/-- Witness of C8: a heap holding the one item 7 passes exactly `(7, outfp)` to the sink. -/
theorem C8_dumpHeap_visits_active_witness :
    (dumpHeap heapOne 3 [] =
      some (heapOne, (active heapOne).foldl (fun w1 p => heapOne.dumpEntry p 3 w1) []) ∧
    dumpHeap (recording heapOne) 3 [] =
      some (recording heapOne, (active heapOne).map (fun p => (p, 3))) ∧
    ((active heapOne).map (fun p => (p, 3))).length = sizeHeap heapOne ∧
    (∀ i, i < heapOne.number → (active heapOne)[i]? = some (rd heapOne.array i))) ∧
    (dumpHeap heapOne 3 []).map (fun r => r.2) = some [(7, 3)] ∧
    (createHeap 5 (some ltPtr) (some logEntry)).bind (fun h => insertHeapItem h 7)
      = some heapOne :=
  ⟨C8_dumpHeap_visits_active heapOne 3 [] (by decide), by decide, rfl⟩

/-- C9 fails on the code: destroying the heap of capacity 5 that holds the one item 7
releases that item before the block and the control block. -/
theorem C9_counterexample_item_released :
    destroyHeap ((createHeap 5 (some ltPtr) (some logEntry)).bind
      (fun h => insertHeapItem h 7)) = some [Freed.item 7, Freed.block, Freed.control] := by
  decide

/-- C9 as amended: `destroyHeap` releases the block and the control block; before them
it releases no item handle when `number` is 0, and when `number` is not 0 it releases
every handle other than `NULL` found in the slots `0 .. capacity - 1`, in index order. -/
theorem C9_destroyHeap_releases (aHeap : Heap_S σ) :
    destroyHeap (some aHeap) = some
      ((if aHeap.number ≠ 0 then
          (((List.range aHeap.capacity).map (rd aHeap.array)).filter
            (fun p => decide (p ≠ NULL))).map Freed.item
        else []) ++ [Freed.block, Freed.control]) :=
  destroyHeap_spec aHeap

/-- C10: for a strict weak order, the heap-order invariant (no entry at an index
`0 < i < number` ranks strictly before the entry at `parent i`) holds for the heap
returned by `createHeap`, is preserved by `insertHeapItem` for every item, and is
preserved by `removeTopHeap` on every heap with `number > 0`. -/
theorem C10_heap_order_invariant (aHeap : Heap_S σ) (item : Ptr) (capacity : Nat)
    (d : Ptr → FILE → σ → σ) (hs : StrictWeakOrder aHeap.compFun) (wf : wellFormed aHeap)
    (hb : aHeap.number < HALF) (ho : heapOrdered aHeap) :
    (∃ h0, createHeap capacity (some aHeap.compFun) (some d) = some h0 ∧ heapOrdered h0) ∧
    (∃ h2, insertHeapItem aHeap item = some h2 ∧ heapOrdered h2) ∧
    (0 < aHeap.number → ∃ t h2, removeTopHeap aHeap = some (t, h2) ∧ heapOrdered h2) := by
  refine ⟨?_, ?_, ?_⟩
  · obtain ⟨h0, e0, _, ho0, _⟩ := createHeap_init capacity aHeap.compFun d
    exact ⟨h0, e0, ho0⟩
  · obtain ⟨h2, e, _, _, _, _, rest⟩ := insertHeapItem_spec aHeap item
    exact ⟨h2, e, (rest wf hb).2.2 hs ho⟩
  · intro hpos
    obtain ⟨h2, e, _, _, _, _, rest⟩ := removeTopHeap_spec aHeap hpos hb
    exact ⟨_, h2, e, (rest wf).2.2 hs ho⟩

/-- Witness of C10: the full ordered heap `[2, 9, 4]`, inserting 1 and removing the top. -/
theorem C10_heap_order_invariant_witness :
    ((∃ h0, createHeap 4 (some heapFull.compFun) (some logEntry) = some h0 ∧ heapOrdered h0) ∧
    (∃ h2, insertHeapItem heapFull 1 = some h2 ∧ heapOrdered h2) ∧
    (0 < heapFull.number →
      ∃ t h2, removeTopHeap heapFull = some (t, h2) ∧ heapOrdered h2)) ∧
    (insertHeapItem heapFull 1).map active = some [1, 2, 4, 9] ∧
    (removeTopHeap heapFull).map (fun r => active r.2) = some [4, 9] :=
  ⟨C10_heap_order_invariant heapFull 1 4 logEntry ltPtr_strictWeakOrder (by decide) (by decide)
    (by decide), by decide, by decide⟩

/-- C11: for every `compFun`, `number ≤ capacity` holds after `createHeap` and is
preserved by `insertHeapItem` and by `removeTopHeap` on a non-empty heap; the capacity
does not decrease under insert, remove or dump; `insertHeapItem` leaves the capacity
unchanged unless `number = capacity` before the call, and then raises it by exactly
`ALLOC_UNIT = 5`; `removeTopHeap` and `dumpHeap` leave it unchanged. -/
theorem C11_capacity_discipline (aHeap : Heap_S σ) (item : Ptr) (capacity : Nat)
    (c : Ptr → Ptr → Bool) (d : Ptr → FILE → σ → σ) (outfp : FILE) (w : σ)
    (hle : aHeap.number ≤ aHeap.capacity) (hb : aHeap.number < HALF) :
    (∃ h0, createHeap capacity (some c) (some d) = some h0 ∧ h0.number ≤ h0.capacity) ∧
    (∃ h2, insertHeapItem aHeap item = some h2 ∧ h2.number ≤ h2.capacity ∧
      aHeap.capacity ≤ h2.capacity ∧
      (aHeap.number ≠ aHeap.capacity → h2.capacity = aHeap.capacity) ∧
      (aHeap.number = aHeap.capacity → h2.capacity = aHeap.capacity + ALLOC_UNIT) ∧
      ALLOC_UNIT = 5) ∧
    (0 < aHeap.number → ∃ t h2, removeTopHeap aHeap = some (t, h2) ∧
      h2.number ≤ h2.capacity ∧ h2.capacity = aHeap.capacity) ∧
    (∃ h2 w2, dumpHeap aHeap outfp w = some (h2, w2) ∧ h2.capacity = aHeap.capacity ∧
      h2.number ≤ h2.capacity) := by
  refine ⟨?_, ?_, ?_, ?_⟩
  · obtain ⟨h0, e0, wf0, _⟩ := createHeap_init capacity c d
    exact ⟨h0, e0, wf0.1⟩
  · obtain ⟨h2, e, en, ec, _⟩ := insertHeapItem_spec aHeap item
    rw [growIfFull_capacity] at ec
    have en2 : h2.number = aHeap.number + 1 := by
      rw [en]; simp only [HALF, SIZE_MOD] at *; omega
    refine ⟨h2, e, ?_, ?_, ?_, ?_, rfl⟩
    · rw [en2, ec]
      split
      · simp only [HALF, SIZE_MOD, ALLOC_UNIT] at *; omega
      · omega
    · rw [ec]
      split
      · simp only [HALF, SIZE_MOD, ALLOC_UNIT] at *; omega
      · exact le_refl _
    · intro hne
      rw [ec, if_neg hne]
    · intro heq
      rw [ec, if_pos heq]
      simp only [HALF, SIZE_MOD, ALLOC_UNIT] at *; omega
  · intro hpos
    obtain ⟨h2, e, en, ec, _⟩ := removeTopHeap_spec aHeap hpos hb
    exact ⟨_, h2, e, by omega, ec⟩
  · refine ⟨aHeap, _, dumpHeap_spec aHeap outfp w ?_, rfl, hle⟩
    simp only [HALF, SIZE_MOD] at *; omega

/-- Witness of C11: the full heap `[2, 9, 4]` of capacity 3 grows to capacity 8. -/
theorem C11_capacity_discipline_witness :
    ((∃ h0, createHeap 0 (some ltPtr) (some logEntry) = some h0 ∧ h0.number ≤ h0.capacity) ∧
    (∃ h2, insertHeapItem heapFull 1 = some h2 ∧ h2.number ≤ h2.capacity ∧
      heapFull.capacity ≤ h2.capacity ∧
      (heapFull.number ≠ heapFull.capacity → h2.capacity = heapFull.capacity) ∧
      (heapFull.number = heapFull.capacity → h2.capacity = heapFull.capacity + ALLOC_UNIT) ∧
      ALLOC_UNIT = 5) ∧
    (0 < heapFull.number → ∃ t h2, removeTopHeap heapFull = some (t, h2) ∧
      h2.number ≤ h2.capacity ∧ h2.capacity = heapFull.capacity) ∧
    (∃ h2 w2, dumpHeap heapFull 3 [] = some (h2, w2) ∧ h2.capacity = heapFull.capacity ∧
      h2.number ≤ h2.capacity)) ∧
    (insertHeapItem heapFull 1).map (fun h => (h.number, h.capacity)) = some (4, 8) ∧
    (insertHeapItem heapOne 1).map (fun h => (h.number, h.capacity)) = some (2, 5) ∧
    (removeTopHeap heapFull).map (fun r => (r.2.number, r.2.capacity)) = some (2, 3) :=
  ⟨C11_capacity_discipline heapFull 1 0 ltPtr logEntry 3 [] (by decide) (by decide),
    by decide, by decide, by decide⟩

/-- C12: for a strict weak order and an index `i < number`, `first_of_three` returns `i`
exactly when no existing child of `i` (a child index below `number`) holds an entry that
ranks strictly before `array[i]`; otherwise it returns the index `c` of an existing child
with `compFun array[c] array[i]` true such that no existing child ranks strictly before
`array[c]`. With only a left child it returns `lChild i` iff
`compFun array[lChild i] array[i]`, and with no child it returns `i`. -/
theorem C12_three_way_rule (aHeap : Heap_S σ) (i : Nat)
    (hs : StrictWeakOrder aHeap.compFun) (hi : i < aHeap.number) (hb : aHeap.number < HALF) :
    (first_of_three aHeap i = i ↔
      ∀ c, c = lChild i ∨ c = rChild i → c < aHeap.number →
        aHeap.compFun (rd aHeap.array c) (rd aHeap.array i) = false) ∧
    (first_of_three aHeap i ≠ i →
      (first_of_three aHeap i = lChild i ∨ first_of_three aHeap i = rChild i) ∧
      first_of_three aHeap i < aHeap.number ∧
      aHeap.compFun (rd aHeap.array (first_of_three aHeap i)) (rd aHeap.array i) = true ∧
      ∀ c, c = lChild i ∨ c = rChild i → c < aHeap.number →
        aHeap.compFun (rd aHeap.array c) (rd aHeap.array (first_of_three aHeap i)) = false) ∧
    (lChild i < aHeap.number → ¬ rChild i < aHeap.number →
      (first_of_three aHeap i = lChild i ↔
        aHeap.compFun (rd aHeap.array (lChild i)) (rd aHeap.array i) = true)) ∧
    (¬ lChild i < aHeap.number → first_of_three aHeap i = i) := by
  have hi1 : i + 1 < HALF := by omega
  have el : lChild i = 2 * i + 1 := lChild_eq (by omega)
  have er : rChild i = 2 * i + 2 := rChild_eq hi1
  have hcases := first_of_three_cases aHeap i hi1
  rw [el, er]
  refine ⟨⟨?_, ?_⟩, ?_, ?_, ?_⟩
  · intro e c hc hcn
    exact first_of_three_stay hi1 e c hcn hc
  · intro hall
    by_contra hne
    obtain ⟨hmv, _⟩ := first_of_three_move hs hi1 hne
    have h1 : first_of_three aHeap i = 2 * i + 1 ∨ first_of_three aHeap i = 2 * i + 2 := by omega
    have h2 : first_of_three aHeap i < aHeap.number := by omega
    rw [hall _ h1 h2] at hmv
    exact Bool.false_ne_true hmv
  · intro hne
    obtain ⟨hmv, hoth⟩ := first_of_three_move hs hi1 hne
    exact ⟨by omega, by omega, hmv, fun c hc hcn => hoth c hcn hc⟩
  · intro hl hr
    constructor
    · intro e
      have hne : first_of_three aHeap i ≠ i := by omega
      have := (first_of_three_move hs hi1 hne).1
      rw [e] at this
      exact this
    · intro hcmp
      by_contra hne
      have e : first_of_three aHeap i = i := by omega
      have := first_of_three_stay hi1 e (2 * i + 1) hl (Or.inl rfl)
      rw [hcmp] at this
      exact Bool.false_ne_true this.symm
  · intro hl
    omega

/-- Witness of C12: in the heap `[2, 9, 4]` the root stays; in `[5, 3, 3]` it does not. -/
theorem C12_three_way_rule_witness :
    ((first_of_three heapFull 0 = 0 ↔
      ∀ c, c = lChild 0 ∨ c = rChild 0 → c < heapFull.number →
        heapFull.compFun (rd heapFull.array c) (rd heapFull.array 0) = false) ∧
    (first_of_three heapFull 0 ≠ 0 →
      (first_of_three heapFull 0 = lChild 0 ∨ first_of_three heapFull 0 = rChild 0) ∧
      first_of_three heapFull 0 < heapFull.number ∧
      heapFull.compFun (rd heapFull.array (first_of_three heapFull 0)) (rd heapFull.array 0)
        = true ∧
      ∀ c, c = lChild 0 ∨ c = rChild 0 → c < heapFull.number →
        heapFull.compFun (rd heapFull.array c) (rd heapFull.array (first_of_three heapFull 0))
          = false) ∧
    (lChild 0 < heapFull.number → ¬ rChild 0 < heapFull.number →
      (first_of_three heapFull 0 = lChild 0 ↔
        heapFull.compFun (rd heapFull.array (lChild 0)) (rd heapFull.array 0) = true)) ∧
    (¬ lChild 0 < heapFull.number → first_of_three heapFull 0 = 0)) ∧
    first_of_three heapFull 0 = 0 ∧ first_of_three heapTie 0 = 2 ∧
    first_of_three heapFull 1 = 1 :=
  ⟨C12_three_way_rule heapFull 0 ltPtr_strictWeakOrder (by decide) (by decide),
    by decide, by decide, by decide⟩

/-- C13 fails on the code: in the heap `[5, 3, 3]` both children of the root exist, tie
with each other and rank before the root, and `first_of_three` returns the right child. -/
theorem C13_counterexample_tie_goes_right :
    rChild 0 < heapTie.number ∧
    (heapTie.compFun (rd heapTie.array (lChild 0)) (rd heapTie.array 0) = true ∨
      heapTie.compFun (rd heapTie.array (rChild 0)) (rd heapTie.array 0) = true) ∧
    heapTie.compFun (rd heapTie.array (lChild 0)) (rd heapTie.array (rChild 0)) = false ∧
    heapTie.compFun (rd heapTie.array (rChild 0)) (rd heapTie.array (lChild 0)) = false ∧
    first_of_three heapTie 0 ≠ lChild 0 ∧ first_of_three heapTie 0 = rChild 0 := by
  decide

/-- C13 as amended: when both children of `i` exist, at least one of them ranks strictly
before `array[i]`, and the two children tie (neither ranks strictly before the other),
`first_of_three` promotes the right child: it returns `rChild i`. -/
theorem C13_tie_promotes_right (aHeap : Heap_S σ) (i : Nat)
    (hr : rChild i < aHeap.number)
    (hv : aHeap.compFun (rd aHeap.array (lChild i)) (rd aHeap.array i) = true ∨
      aHeap.compFun (rd aHeap.array (rChild i)) (rd aHeap.array i) = true)
    (hlr : aHeap.compFun (rd aHeap.array (lChild i)) (rd aHeap.array (rChild i)) = false)
    (_hrl : aHeap.compFun (rd aHeap.array (rChild i)) (rd aHeap.array (lChild i)) = false) :
    first_of_three aHeap i = rChild i := by
  unfold first_of_three
  simp only
  rw [if_pos hr]
  have hor : (aHeap.compFun (rd aHeap.array (lChild i)) (rd aHeap.array i) ||
      aHeap.compFun (rd aHeap.array (rChild i)) (rd aHeap.array i)) = true := by
    rcases hv with h | h <;> simp [h]
  rw [if_pos hor, hlr]
  simp

/-- Witness of C13 as amended: the heap `[5, 3, 3]` at the root. -/
theorem C13_tie_promotes_right_witness :
    first_of_three heapTie 0 = rChild 0 ∧ rChild 0 = 2 :=
  ⟨C13_tie_promotes_right heapTie 0 (by decide) (by decide) (by decide) (by decide),
    by decide⟩

/-- C17: for an index `i` for which `2 * i + 2` does not overflow `size_t`,
`lChild i = 2 * i + 1`, `rChild i = 2 * i + 2` and the parent of either child is `i`;
for an index `j > 0`, `parent j = (j - 1) / 2` (integer division) and `parent j < j`. -/
theorem C17_index_arithmetic (i j : Nat) (hi : 2 * i + 2 < SIZE_MOD) (hj : 0 < j)
    (hjm : j < SIZE_MOD) :
    lChild i = 2 * i + 1 ∧ rChild i = 2 * i + 2 ∧
    parent (lChild i) = i ∧ parent (rChild i) = i ∧
    parent j = (j - 1) / 2 ∧ parent j < j := by
  simp only [lChild, rChild, parent, SIZE_MOD] at *
  omega

/-- Witness of C17: `i = 3` has children 7 and 8, and `parent 8 = 3`; the largest index
whose children do not overflow is `2 ^ 63 - 2`. -/
theorem C17_index_arithmetic_witness :
    (lChild 3 = 2 * 3 + 1 ∧ rChild 3 = 2 * 3 + 2 ∧
    parent (lChild 3) = 3 ∧ parent (rChild 3) = 3 ∧
    parent 8 = (8 - 1) / 2 ∧ parent 8 < 8) ∧
    rChild 9223372036854775806 = 18446744073709551614 ∧
    rChild 9223372036854775807 = 0 :=
  ⟨C17_index_arithmetic 3 8 (by decide) (by decide) (by decide), by decide, by decide⟩

/-! ### The top after an insert -/

theorem insertHeapItem_loop (h : Heap_S σ) (x : Ptr) :
    ∃ h3, siftUpLoop (growIfFull h).number
        { growIfFull h with array := wr (growIfFull h).array (growIfFull h).number x }
        (growIfFull h).number = some h3 ∧
      insertHeapItem h x = some { h3 with number := (h3.number + 1) % SIZE_MOD } := by
  obtain ⟨h3, e, _⟩ := siftUpLoop_frame (growIfFull h).number
    { growIfFull h with array := wr (growIfFull h).array (growIfFull h).number x }
    (growIfFull h).number (le_refl _)
  exact ⟨h3, e, by simp only [insertHeapItem, siftUp, e, Option.map_some']⟩

theorem siftUpLoop_top_keep : ∀ (fuel : Nat) (h h2 : Heap_S σ) (k : Nat),
    siftUpLoop fuel h k = some h2 → k < h.array.length → 0 < k →
    h.compFun (rd h.array 0) (rd h.array k) = true → rd h2.array 0 = rd h.array 0 := by
  intro fuel
  induction fuel with
  | zero =>
    intro h h2 k e _ _ _
    unfold siftUpLoop at e
    split at e
    · exact absurd e (by simp)
    · cases e; rfl
  | succ fuel ih =>
    intro h h2 k e hkl hk hc
    unfold siftUpLoop at e
    split at e
    · rename_i hcond
      have hp : parent k < k := parent_lt hk
      have hp0 : parent k ≠ 0 := by
        intro h0
        have := hcond.2
        rw [h0, hc] at this
        exact Bool.false_ne_true this.symm
      have r0 : rd (swapBlk h.array (parent k) k) 0 = rd h.array 0 := by
        rw [rd_swapBlk (by omega) hkl, if_neg (by omega), if_neg (by omega)]
      have rp : rd (swapBlk h.array (parent k) k) (parent k) = rd h.array k := by
        rw [rd_swapBlk (by omega) hkl, if_neg (by omega), if_pos rfl]
      have := ih { h with array := swapBlk h.array (parent k) k } h2 (parent k) e
        (by simp only [length_swapBlk]; omega) (by omega)
        (by simp only [r0, rp]; exact hc)
      rw [this]
      exact r0
    · cases e; rfl

theorem siftUpLoop_top_new : ∀ (fuel : Nat) (h h2 : Heap_S σ) (k : Nat),
    siftUpLoop fuel h k = some h2 → k < h.array.length →
    (∀ j, j < k → h.compFun (rd h.array j) (rd h.array k) = false) →
    rd h2.array 0 = rd h.array k := by
  have stop : ∀ (h : Heap_S σ) (k : Nat),
      ¬ (k > 0 ∧ h.compFun (rd h.array (parent k)) (rd h.array k) = false) →
      (∀ j, j < k → h.compFun (rd h.array j) (rd h.array k) = false) → k = 0 := by
    intro h k hcond hall
    by_contra hk
    exact hcond ⟨by omega, hall _ (parent_lt (by omega))⟩
  intro fuel
  induction fuel with
  | zero =>
    intro h h2 k e _ hall
    unfold siftUpLoop at e
    split at e
    · exact absurd e (by simp)
    · rename_i hcond
      cases e
      rw [stop _ k hcond hall]
  | succ fuel ih =>
    intro h h2 k e hkl hall
    unfold siftUpLoop at e
    split at e
    · rename_i hcond
      have hp : parent k < k := parent_lt hcond.1
      have rp : rd (swapBlk h.array (parent k) k) (parent k) = rd h.array k := by
        rw [rd_swapBlk (by omega) hkl, if_neg (by omega), if_pos rfl]
      have := ih { h with array := swapBlk h.array (parent k) k } h2 (parent k) e
        (by simp only [length_swapBlk]; omega)
        (by
          intro j hj
          simp only [rp]
          rw [rd_swapBlk (by omega) hkl, if_neg (by omega), if_neg (by omega)]
          exact hall j (by omega))
      rw [this]
      exact rp
    · rename_i hcond
      cases e
      rw [stop _ k hcond hall]

/-- C14: on a heap with `number > 0`: if `compFun array[0] item` is true, `topHeap` after
`insertHeapItem` is the handle it was before, for every `compFun`; and if `compFun` is a
strict weak order, the heap is heap-ordered and `compFun array[0] item` is false, then
`topHeap` after the insert is `item`, so an item that ties with the top replaces it. -/
theorem C14_top_after_insert (aHeap : Heap_S σ) (item : Ptr) (wf : wellFormed aHeap)
    (hb : aHeap.number < HALF) (hpos : 0 < aHeap.number) :
    (aHeap.compFun (rd aHeap.array 0) item = true →
      ∃ h2, insertHeapItem aHeap item = some h2 ∧ topHeap h2 = topHeap aHeap) ∧
    (StrictWeakOrder aHeap.compFun → heapOrdered aHeap →
      aHeap.compFun (rd aHeap.array 0) item = false →
      ∃ h2, insertHeapItem aHeap item = some h2 ∧ topHeap h2 = item) := by
  obtain ⟨h3, e, ei⟩ := insertHeapItem_loop aHeap item
  obtain ⟨g1, g2, g3⟩ := growIfFull_spec wf hb
  have gn := growIfFull_number aHeap
  have gc := growIfFull_compFun aHeap
  have hl : aHeap.number < (growIfFull aHeap).array.length := by omega
  have rn : rd (wr (growIfFull aHeap).array aHeap.number item) aHeap.number = item :=
    rd_wr_same _ hl
  have rj : ∀ j, j < aHeap.number →
      rd (wr (growIfFull aHeap).array aHeap.number item) j = rd aHeap.array j := by
    intro j hj
    rw [rd_wr_other _ (by omega), g3 j hj]
  rw [gn] at e
  constructor
  · intro hc
    refine ⟨_, ei, ?_⟩
    have := siftUpLoop_top_keep _ _ h3 _ e (by simp only [length_wr]; exact hl) hpos
      (by simp only [rn, rj 0 hpos, gc]; exact hc)
    simp only [topHeap]
    rw [this, rj 0 hpos]
  · intro hs ho hc
    refine ⟨_, ei, ?_⟩
    have := siftUpLoop_top_new _ _ h3 _ e (by simp only [length_wr]; exact hl)
      (by
        intro j hj
        simp only [rn, rj j hj, gc]
        exact hs.negTrans (heapOrd_root hs ho j hj) hc)
    simp only [topHeap]
    rw [this, rn]

/-- Witness of C14: on the heap `[20, 90, 40]` ordered by the tens, inserting 35 keeps
the top 20, and inserting 21, which ties with the top, puts 21 on top. -/
theorem C14_top_after_insert_witness :
    ((heapTens.compFun (rd heapTens.array 0) 21 = true →
      ∃ h2, insertHeapItem heapTens 21 = some h2 ∧ topHeap h2 = topHeap heapTens) ∧
    (StrictWeakOrder heapTens.compFun → heapOrdered heapTens →
      heapTens.compFun (rd heapTens.array 0) 21 = false →
      ∃ h2, insertHeapItem heapTens 21 = some h2 ∧ topHeap h2 = 21)) ∧
    (insertHeapItem heapTens 35).map (fun h => h.array) = some [20, 35, 40, 90, 0, 0, 0, 0] ∧
    (insertHeapItem heapTens 21).map (fun h => h.array) = some [21, 20, 40, 90, 0, 0, 0, 0] :=
  ⟨C14_top_after_insert heapTens 21 (by decide) (by decide) (by decide), by decide, by decide⟩

/-! ### The ancestor path -/

theorem ancestorPath_cons (fuel k : Nat) :
    ancestorPath fuel k = k :: (ancestorPath fuel k).tail := by
  cases fuel with
  | zero => rfl
  | succ fuel =>
    unfold ancestorPath
    split <;> rfl

theorem ancestorPath_tail_lt : ∀ (fuel k j : Nat), j ∈ (ancestorPath fuel k).tail → j < k := by
  intro fuel
  induction fuel with
  | zero => intro k j hj; simp [ancestorPath] at hj
  | succ fuel ih =>
    intro k j hj
    unfold ancestorPath at hj
    split at hj
    · rename_i hk
      have hp : parent k < k := parent_lt hk
      rw [List.tail_cons, ancestorPath_cons] at hj
      rcases List.mem_cons.1 hj with rfl | hj
      · exact hp
      · have := ih _ _ hj
        omega
    · simp at hj

theorem ancestorPath_last : ∀ (fuel k : Nat), k ≤ fuel →
    (ancestorPath fuel k).getLast? = some 0 := by
  intro fuel
  induction fuel with
  | zero =>
    intro k hk
    have : k = 0 := by omega
    subst this
    rfl
  | succ fuel ih =>
    intro k hk
    unfold ancestorPath
    split
    · rename_i hk0
      have hp : parent k < k := parent_lt hk0
      have := ih (parent k) (by omega)
      rw [ancestorPath_cons] at this ⊢
      rw [List.getLast?_cons_cons]
      exact this
    · have : k = 0 := by omega
      subst this
      rfl

theorem ancestorPath_chain : ∀ (fuel k : Nat),
    List.Chain' (fun a b => b = parent a) (ancestorPath fuel k) := by
  intro fuel
  induction fuel with
  | zero => intro k; simp [ancestorPath]
  | succ fuel ih =>
    intro k
    unfold ancestorPath
    split
    · have := ih (parent k)
      rw [ancestorPath_cons] at this ⊢
      exact List.Chain'.cons rfl this
    · simp

theorem siftUpLoop_path : ∀ (fuel : Nat) (h h2 : Heap_S σ) (k : Nat),
    siftUpLoop fuel h k = some h2 → k < h.array.length →
    (∀ j, j ∉ ancestorPath fuel k → rd h2.array j = rd h.array j) ∧
    ∃ t, t ≤ (ancestorPath fuel k).tail.length ∧
      (ancestorPath fuel k).map (rd h2.array) =
        ((ancestorPath fuel k).tail.map (rd h.array)).take t ++
          rd h.array k :: ((ancestorPath fuel k).tail.map (rd h.array)).drop t := by
  have stay : ∀ (fuel : Nat) (h : Heap_S σ) (k : Nat),
      (∀ j, j ∉ ancestorPath fuel k → rd h.array j = rd h.array j) ∧
      ∃ t, t ≤ (ancestorPath fuel k).tail.length ∧
        (ancestorPath fuel k).map (rd h.array) =
          ((ancestorPath fuel k).tail.map (rd h.array)).take t ++
            rd h.array k :: ((ancestorPath fuel k).tail.map (rd h.array)).drop t := by
    intro fuel h k
    refine ⟨fun _ _ => rfl, 0, Nat.zero_le _, ?_⟩
    rw [List.take_zero, List.drop_zero, List.nil_append]
    conv_lhs => rw [ancestorPath_cons]
    rfl
  intro fuel
  induction fuel with
  | zero =>
    intro h h2 k e _
    unfold siftUpLoop at e
    split at e
    · exact absurd e (by simp)
    · cases e
      exact stay 0 _ k
  | succ fuel ih =>
    intro h h2 k e hkl
    unfold siftUpLoop at e
    split at e
    · rename_i hcond
      have hp : parent k < k := parent_lt hcond.1
      have hpath : ancestorPath (fuel + 1) k = k :: ancestorPath fuel (parent k) := by
        rw [ancestorPath, if_pos hcond.1]
      obtain ⟨ih1, t, ht, ih2⟩ := ih { h with array := swapBlk h.array (parent k) k } h2
        (parent k) e (by simp only [length_swapBlk]; omega)
      simp only at ih1 ih2
      have hcons := ancestorPath_cons fuel (parent k)
      have hknot : k ∉ ancestorPath fuel (parent k) := by
        intro hk
        rw [hcons] at hk
        rcases List.mem_cons.1 hk with h1 | h1
        · omega
        · have := ancestorPath_tail_lt _ _ _ h1
          omega
      have rk : rd (swapBlk h.array (parent k) k) k = rd h.array (parent k) := by
        rw [rd_swapBlk (by omega) hkl, if_pos rfl]
      have rp : rd (swapBlk h.array (parent k) k) (parent k) = rd h.array k := by
        rw [rd_swapBlk (by omega) hkl, if_neg (by omega), if_pos rfl]
      have rtl : (ancestorPath fuel (parent k)).tail.map (rd (swapBlk h.array (parent k) k)) =
          (ancestorPath fuel (parent k)).tail.map (rd h.array) := by
        apply List.map_congr_left
        intro j hj
        have := ancestorPath_tail_lt _ _ _ hj
        rw [rd_swapBlk (by omega) hkl, if_neg (by omega), if_neg (by omega)]
      rw [rtl, rp] at ih2
      rw [hpath]
      constructor
      · intro j hj
        have hjk : j ≠ k := fun h1 => hj (h1 ▸ List.mem_cons_self _ _)
        have hjp : j ∉ ancestorPath fuel (parent k) := fun h1 => hj (List.mem_cons_of_mem _ h1)
        have hjpp : j ≠ parent k := by
          intro h1
          apply hjp
          rw [hcons, h1]
          exact List.mem_cons_self _ _
        rw [ih1 j hjp, rd_swapBlk (by omega) hkl, if_neg hjk, if_neg hjpp]
      · refine ⟨t + 1, ?_, ?_⟩
        · rw [List.tail_cons]
          conv_rhs => rw [hcons]
          simp only [List.length_cons]
          omega
        · rw [List.map_cons, List.tail_cons, ih1 k hknot, rk, ih2]
          conv_rhs => rw [hcons]
          simp only [List.map_cons, List.take_succ_cons, List.drop_succ_cons, List.cons_append]
    · cases e
      exact stay (fuel + 1) _ k

/-- C15: for every `compFun`, `insertHeapItem` changes only slots on the ancestor path
`number, parent number, ..., 0` of the insertion index: every active slot `j < number`
off the path keeps its handle, and read along the path the handles after the call are
the former occupants of the path in their former order with `item` put in at one
position `t`: the occupants below that position have each moved one step down. -/
theorem C15_insert_frame (aHeap : Heap_S σ) (item : Ptr) (wf : wellFormed aHeap)
    (hb : aHeap.number < HALF) :
    ∃ h2 t, insertHeapItem aHeap item = some h2 ∧
      (∀ j, j < aHeap.number → j ∉ ancestorPath aHeap.number aHeap.number →
        rd h2.array j = rd aHeap.array j) ∧
      t ≤ (ancestorPath aHeap.number aHeap.number).tail.length ∧
      (ancestorPath aHeap.number aHeap.number).map (rd h2.array) =
        ((ancestorPath aHeap.number aHeap.number).tail.map (rd aHeap.array)).take t ++
          item :: ((ancestorPath aHeap.number aHeap.number).tail.map (rd aHeap.array)).drop t ∧
      (ancestorPath aHeap.number aHeap.number).head? = some aHeap.number ∧
      (ancestorPath aHeap.number aHeap.number).getLast? = some 0 ∧
      List.Chain' (fun a b => b = parent a) (ancestorPath aHeap.number aHeap.number) := by
  obtain ⟨h3, e, ei⟩ := insertHeapItem_loop aHeap item
  obtain ⟨g1, g2, g3⟩ := growIfFull_spec wf hb
  have gn := growIfFull_number aHeap
  have hl : aHeap.number < (growIfFull aHeap).array.length := by omega
  rw [gn] at e
  obtain ⟨p1, t, ht, p2⟩ := siftUpLoop_path _ _ h3 _ e (by simp only [length_wr]; exact hl)
  simp only at p1 p2
  have rtl : (ancestorPath aHeap.number aHeap.number).tail.map
      (rd (wr (growIfFull aHeap).array aHeap.number item)) =
      (ancestorPath aHeap.number aHeap.number).tail.map (rd aHeap.array) := by
    apply List.map_congr_left
    intro j hj
    have := ancestorPath_tail_lt _ _ _ hj
    rw [rd_wr_other _ (by omega), g3 j this]
  rw [rtl, rd_wr_same _ hl] at p2
  refine ⟨_, t, ei, ?_, ht, p2, ?_, ancestorPath_last _ _ (le_refl _), ancestorPath_chain _ _⟩
  · intro j hj hnot
    simp only
    rw [p1 j hnot, rd_wr_other _ (by omega), g3 j hj]
  · rw [ancestorPath_cons]
    rfl

/-- Witness of C15: inserting 1 into `[2, 9, 4]` at index 3 follows the path `3, 1, 0`:
slot 2 keeps 4, and the path reads `9, 2, 1` from the leaf, that is `[9, 2]` with 1 put
in at position 2. -/
theorem C15_insert_frame_witness :
    (∃ h2 t, insertHeapItem heapFull 1 = some h2 ∧
      (∀ j, j < heapFull.number → j ∉ ancestorPath heapFull.number heapFull.number →
        rd h2.array j = rd heapFull.array j) ∧
      t ≤ (ancestorPath heapFull.number heapFull.number).tail.length ∧
      (ancestorPath heapFull.number heapFull.number).map (rd h2.array) =
        ((ancestorPath heapFull.number heapFull.number).tail.map (rd heapFull.array)).take t ++
          1 :: ((ancestorPath heapFull.number heapFull.number).tail.map
            (rd heapFull.array)).drop t ∧
      (ancestorPath heapFull.number heapFull.number).head? = some heapFull.number ∧
      (ancestorPath heapFull.number heapFull.number).getLast? = some 0 ∧
      List.Chain' (fun a b => b = parent a) (ancestorPath heapFull.number heapFull.number)) ∧
    ancestorPath 3 3 = [3, 1, 0] ∧
    (insertHeapItem heapFull 1).map (fun h => (ancestorPath 3 3).map (rd h.array))
      = some [9, 2, 1] ∧
    (insertHeapItem heapFull 1).map (fun h => rd h.array 2) = some 4 :=
  ⟨C15_insert_frame heapFull 1 (by decide) (by decide), by decide, by decide, by decide⟩

/-! ### Termination -/

theorem siftUpLoop_fuel : ∀ (fuel : Nat) (h h2 : Heap_S σ) (k : Nat),
    siftUpLoop fuel h k = some h2 → ∀ fuel2, fuel ≤ fuel2 → siftUpLoop fuel2 h k = some h2 := by
  intro fuel
  induction fuel with
  | zero =>
    intro h h2 k e fuel2 _
    unfold siftUpLoop at e
    split at e
    · exact absurd e (by simp)
    · rename_i hcond
      cases fuel2 with
      | zero => simp only [siftUpLoop, if_neg hcond, e]
      | succ f => simp only [siftUpLoop, if_neg hcond, e]
  | succ fuel ih =>
    intro h h2 k e fuel2 hf
    obtain ⟨f, rfl⟩ : ∃ f, fuel2 = f + 1 := ⟨fuel2 - 1, by omega⟩
    unfold siftUpLoop at e ⊢
    split at e
    · rename_i hcond
      rw [if_pos hcond]
      exact ih _ h2 _ e f (by omega)
    · rename_i hcond
      rw [if_neg hcond]
      exact e

theorem siftDownLoop_fuel : ∀ (fuel : Nat) (h h2 : Heap_S σ) (k : Nat),
    siftDownLoop fuel h k = some h2 → ∀ fuel2, fuel ≤ fuel2 →
    siftDownLoop fuel2 h k = some h2 := by
  intro fuel
  induction fuel with
  | zero =>
    intro h h2 k e fuel2 _
    unfold siftDownLoop at e
    split at e
    · exact absurd e (by simp)
    · rename_i hcond
      cases fuel2 with
      | zero => simp only [siftDownLoop, if_neg hcond, e]
      | succ f => simp only [siftDownLoop, if_neg hcond, e]
  | succ fuel ih =>
    intro h h2 k e fuel2 hf
    obtain ⟨f, rfl⟩ : ∃ f, fuel2 = f + 1 := ⟨fuel2 - 1, by omega⟩
    unfold siftDownLoop at e ⊢
    simp only at e ⊢
    split at e
    · rename_i hcond
      rw [if_pos hcond]
      exact ih _ h2 _ e f (by omega)
    · rename_i hcond
      rw [if_neg hcond]
      exact e

/-- C16: with no assumption on `compFun`, `siftUp` from any index reaches its exit, with
the same result for every amount of fuel of at least `index`; on a heap whose size is
below half the range of `size_t`, as any heap held in a block of `capacity` pointers is,
`siftDown` from `curr ≤ number` reaches its exit, with the same result for every amount
of fuel of at least `number - curr`; hence `insertHeapItem` returns, and so does
`removeTopHeap` on a non-empty heap. A `siftUp` round goes from `index > 0` to
`parent index < index`; a `siftDown` round goes from `curr` to a larger index below
`number`. -/
theorem C16_sift_loops_terminate (aHeap : Heap_S σ) (index curr : Nat) (item : Ptr)
    (hb : aHeap.number + 1 < HALF) (hcurr : curr ≤ aHeap.number) :
    (∃ h2, siftUp aHeap index = some h2 ∧
      ∀ fuel, index ≤ fuel → siftUpLoop fuel aHeap index = some h2) ∧
    (∃ h2, siftDown aHeap curr = some h2 ∧
      ∀ fuel, aHeap.number ≤ fuel + curr → siftDownLoop fuel aHeap curr = some h2) ∧
    (∃ h2, insertHeapItem aHeap item = some h2) ∧
    (0 < aHeap.number → ∃ r, removeTopHeap aHeap = some r) ∧
    (0 < index → parent index < index) ∧
    (first_of_three aHeap curr ≠ curr →
      curr < first_of_three aHeap curr ∧ first_of_three aHeap curr < aHeap.number) := by
  refine ⟨?_, ?_, ?_, ?_, parent_lt, ?_⟩
  · obtain ⟨h2, e, _⟩ := siftUpLoop_frame index aHeap index (le_refl _)
    exact ⟨h2, e, fun fuel hf => siftUpLoop_fuel _ _ _ _ e fuel hf⟩
  · obtain ⟨h2, e, _⟩ := siftDownLoop_frame (aHeap.number - curr) aHeap curr hb hcurr
      (by omega)
    refine ⟨h2, siftDownLoop_fuel _ _ _ _ e _ (by omega), ?_⟩
    intro fuel hf
    exact siftDownLoop_fuel _ _ _ _ e fuel (by omega)
  · obtain ⟨h2, e, _⟩ := insertHeapItem_spec aHeap item
    exact ⟨h2, e⟩
  · intro hpos
    obtain ⟨h2, e, _⟩ := removeTopHeap_spec aHeap hpos (by omega)
    exact ⟨_, e⟩
  · intro hne
    have := first_of_three_cases aHeap curr (by omega)
    omega

/-- Witness of C16: the heap `[2, 9, 4]` with a `compFun` that is always true; `siftDown`
from the root makes one round and stops at index 1, which has no child. -/
theorem C16_sift_loops_terminate_witness :
    ((∃ h2, siftUp heapAnyOrder 2 = some h2 ∧
      ∀ fuel, 2 ≤ fuel → siftUpLoop fuel heapAnyOrder 2 = some h2) ∧
    (∃ h2, siftDown heapAnyOrder 0 = some h2 ∧
      ∀ fuel, heapAnyOrder.number ≤ fuel + 0 → siftDownLoop fuel heapAnyOrder 0 = some h2) ∧
    (∃ h2, insertHeapItem heapAnyOrder 1 = some h2) ∧
    (0 < heapAnyOrder.number → ∃ r, removeTopHeap heapAnyOrder = some r) ∧
    (0 < 2 → parent 2 < 2) ∧
    (first_of_three heapAnyOrder 0 ≠ 0 →
      0 < first_of_three heapAnyOrder 0 ∧
      first_of_three heapAnyOrder 0 < heapAnyOrder.number)) ∧
    (siftDown heapAnyOrder 0).map (fun h => h.array) = some [9, 2, 4] ∧
    (siftUp heapAnyOrder 2).map (fun h => h.array) = some [2, 9, 4] ∧
    (removeTopHeap heapAnyOrder).map (fun r => (r.1, active r.2)) = some (2, [9, 4]) :=
  ⟨C16_sift_loops_terminate heapAnyOrder 2 0 1 (by decide) (by decide),
    by decide, by decide, by decide⟩

end HeapADT
